import Mathlib

/-!
# Verification of the disent flatness metric (`disent/metrics/_flatness.py`)

This file gives a shallow embedding of the flatness-metric pipeline:

* latent vectors are `List ℚ`, latent traversals are `List (List ℚ)`;
* a torch tensor of per-factor scalars is a `List ℚ`;
* `torch.norm(_, p=p)` is an abstract function `nrm : List ℚ → ℚ` (the
  distance `torch.norm(a - b, p)` becomes `nrm (vsub a b)`); theorems
  quantify over `nrm`, adding exactly the properties of real p-norms
  (non-negativity, definiteness) where a claim needs them;
* Python exceptions (asserts, `IndexError`, `ValueError`) are `Except String`;
* a float that may be NaN is an `Option ℚ` (`none` = NaN), which arises
  from `torch.mean` over an empty tensor (`meanQ`);
* the dataset's `sample_factors` randomness is an explicit stream of base
  factor rows, and `representation_function ∘ dataset_batch_from_factors`
  is a single batch encoder `F : List (List ℕ) → List (List ℚ)`.
-/

namespace Disent

/-- A latent vector (one row of a `(n, z_size)` tensor). -/
abbrev Vec := List ℚ

/-- Pointwise difference of two latent vectors (`a - b` on tensor rows). -/
def vsub (x y : Vec) : Vec := List.zipWith (· - ·) x y

/-- `torch.mean` over a 1-D tensor: NaN (`none`) when the tensor is empty. -/
def meanQ (l : List ℚ) : Option ℚ :=
  if l.isEmpty then none else some (l.sum / l.length)

/-- `torch.mean` over a tensor known (at the call site) to be non-empty:
the plain average. -/
def avg (l : List ℚ) : ℚ := l.sum / l.length

/-- `Except.isOk` spelled out, used to state that a call did not raise. -/
def isOkE : Except String α → Bool
  | .ok _ => true
  | .error _ => false

/-- Python list indexing `xs[i]`: negative indices count from the end,
anything else out of range raises `IndexError`. -/
def pyGet (xs : List α) (i : ℤ) : Except String α :=
  let j : ℤ := if i < 0 then (xs.length : ℤ) + i else i
  if j < 0 then .error "list index out of range"
  else
    match xs[j.toNat]? with
    | some a => .ok a
    | none => .error "list index out of range"

/-- One row of the numpy column assignment `factors[:, idx] = value`:
negative column indices count from the end of the row. -/
def npSetCol (row : List ℕ) (idx : ℤ) (v : ℕ) : List ℕ :=
  let j : ℤ := if idx < 0 then (row.length : ℤ) + idx else idx
  row.set j.toNat v

/-- Splitting a list into chunks of size `c`, carried out with an
accumulator (`acc` is the current chunk reversed, `k` its remaining
capacity) so that the recursion is structural. -/
def chunksGo (c : ℕ) : List α → List α → ℕ → List (List α)
  | [], acc, _ => if acc.isEmpty then [] else [acc.reverse]
  | x :: xs, acc, 0 => acc.reverse :: chunksGo c xs [x] (c - 1)
  | x :: xs, acc, k + 1 => chunksGo c xs (x :: acc) k

/-- Modelled from the spec: `disent.util.chunked` is not under `src/`.
The spec says the input rows are partitioned "into chunks of at most
`batch_size`" and that a zero or negative `batch_size` "fails fast with a
precondition violation (argument error) before any computation proceeds". -/
def chunked (xs : List α) (chunk_size : ℤ) : Except String (List (List α)) :=
  if chunk_size ≤ 0 then .error "chunked: chunk_size must be positive"
  else .ok (chunksGo chunk_size.toNat xs [] chunk_size.toNat)

/-- `encode_all_factors`: chunk the factor rows, run each chunk through the
batch encoder `F`, concatenate the chunk outputs in order. -/
def encode_all_factors (F : List (List ℕ) → List Vec)
    (factors : List (List ℕ)) (batch_size : ℤ) : Except String (List Vec) :=
  (chunked factors batch_size).map (fun chs => (chs.map F).flatten)

/-- `range_along_repeated_factors`: replicate the sampled base row `num`
times and overwrite column `idx` with `0, 1, ..., num - 1`. -/
def range_along_repeated_factors (base : List ℕ) (idx : ℤ) (num : ℕ) :
    List (List ℕ) :=
  (List.range num).map (fun i => npSetCol base idx i)

/-- `encode_all_along_factor`: build the traversal rows for factor `f_idx`
and encode them. -/
def encode_all_along_factor (factor_sizes : List ℕ)
    (F : List (List ℕ) → List Vec) (base : List ℕ) (f_idx : ℤ)
    (batch_size : ℤ) : Except String (List Vec) := do
  let f_size ← pyGet factor_sizes f_idx
  encode_all_factors F (range_along_repeated_factors base f_idx f_size) batch_size

/-- `torch.topk(row, k, largest, sorted=True).values` on one row:
the `k` largest (resp. smallest) entries in descending (resp. ascending)
order. -/
def topkList (row : List ℚ) (k : ℕ) (largest : Bool) : List ℚ :=
  if largest then (List.insertionSort (· ≤ ·) row).reverse.take k
  else (List.insertionSort (· ≤ ·) row).take k

/-- `knn(x, y, k, largest, p)`: asserts `0 < k <= y.shape[0]` and equal
trailing shapes, builds the dense distance matrix
`dist_mat[i][j] = norm(x[i] - y[j], p)`, and returns the per-row top-k
values. -/
def knn (x y : List Vec) (k : ℤ) (largest : Bool) (nrm : Vec → ℚ) :
    Except String (List (List ℚ)) :=
  if ¬ (0 < k ∧ k ≤ (y.length : ℤ)) then
    .error "knn: assert 0 < k <= y.shape[0] failed"
  else if ¬ (x.all fun v => y.all fun w => v.length = w.length) then
    .error "knn: assert x.shape[1:] == y.shape[1:] failed"
  else
    .ok ((x.map fun a => y.map fun b => nrm (vsub a b)).map
          (fun row => topkList row k.toNat largest))

/-- `.max()` over all entries of a tensor; raises on an empty tensor. -/
def tensorMax (l : List ℚ) : Except String ℚ :=
  match l.max? with
  | some m => .ok m
  | none => .error "max(): expected a non-empty tensor"

/-- The per-repeat width (source line 175):
`knn(x=zs, y=zs, k=1, largest=True, p=p).values.max()`. -/
def traversal_width (nrm : Vec → ℚ) (zs : List Vec) : Except String ℚ := do
  let vals ← knn zs zs 1 true nrm
  tensorMax vals.flatten

/-- The raw cyclic deltas (source line 176):
`torch.norm(zs - torch.roll(zs, -1, dims=0), dim=-1, p=p)`, i.e. entry `i`
is the distance from point `i` to point `(i+1) % size`. -/
def rawCyclicDeltas (nrm : Vec → ℚ) (zs : List Vec) : List ℚ :=
  (List.range zs.length).map
    (fun i => nrm (vsub (zs.getD i []) (zs.getD ((i + 1) % zs.length) [])))

/-- `torch.topk(deltas, k, largest=False, sorted=False).values` as a list
of the `k` smallest entries; raises when `k` exceeds the tensor size. -/
def topk_smallest (xs : List ℚ) (k : ℕ) : Except String (List ℚ) :=
  if k ≤ xs.length then .ok ((List.insertionSort (· ≤ ·) xs).take k)
  else .error "topk: k out of range"

/-- One repeat's `(width, deltas)` measures for one norm
(source lines 175-178). -/
def measure_one (nrm : Vec → ℚ) (f_size : ℕ) (zs : List Vec) :
    Except String (ℚ × List ℚ) := do
  let w ← traversal_width nrm zs
  let ds ← topk_smallest (rawCyclicDeltas nrm zs) (f_size - 1)
  pure (w, ds)

/-- `aggregate_measure_distances_along_factor`.  `ps` is the list of norm
functions (the source's `ps=(1, 2)` becomes `[nrm1, nrm2]`); the result is
the per-norm `(ave_width, ave_delta)` pair, in the order of `ps`.
A factor of size 1 returns zero measures, or raises when `cycle_fail`. -/
def aggregate_measure_distances_along_factor (factor_sizes : List ℕ)
    (F : List (List ℕ) → List Vec) (samples : ℕ → List ℕ) (f_idx : ℤ)
    (repeats : ℕ) (batch_size : ℤ) (ps : List (Vec → ℚ))
    (cycle_fail : Bool) : Except String (List (ℚ × ℚ)) := do
  let f_size ← pyGet factor_sizes f_idx
  if f_size = 1 then
    if cycle_fail then
      .error ("dataset factor size is too small for flatness metric with cycle_normalize enabled! size="
        ++ toString f_size ++ " < 2")
    else
      pure (ps.map fun _ => ((0 : ℚ), (0 : ℚ)))
  else do
    let stats ← (List.range repeats).mapM (fun r => do
      let zs ← encode_all_along_factor factor_sizes F (samples r) f_idx batch_size
      ps.mapM (fun nrm => measure_one nrm f_size zs))
    if repeats = 0 then .error "default_collate: batch is empty"
    else
      pure ((List.range ps.length).map fun j =>
        (avg (stats.map fun row => (row.getD j ((0 : ℚ), ([] : List ℚ))).1),
         avg ((stats.map fun row => (row.getD j ((0 : ℚ), ([] : List ℚ))).2).flatten)))

/-- Indices of the active factors: `torch.nonzero(factor_sizes - 1)`. -/
def activeIdx (factor_sizes : List ℕ) : List ℕ :=
  (List.range factor_sizes.length).filter (fun i => factor_sizes.getD i 0 ≠ 1)

/-- `filter_inactive_factors`: assert every factor size is at least 1, then
select the entries of `tensor` at the active indices (torch advanced
indexing, which copies). -/
def filter_inactive_factors (tensor : List ℚ) (factor_sizes : List ℕ) :
    Except String (List ℚ) :=
  if factor_sizes.any (fun s => s = 0) then
    .error "assert factor_sizes >= 1 failed"
  else if (activeIdx factor_sizes).all (fun i => i < tensor.length) then
    .ok ((activeIdx factor_sizes).map (fun i => tensor.getD i 0))
  else .error "index out of bounds"

/-- `compute_flatness`: filter both tensors, run the three asserts, zero
the widths at zero lengths, set the zero lengths to 1, and return the mean
of the elementwise ratios (NaN when no factor is active). -/
def compute_flatness (widths lengths : List ℚ) (factor_sizes : List ℕ) :
    Except String (Option ℚ) := do
  let ws ← filter_inactive_factors widths factor_sizes
  let ls ← filter_inactive_factors lengths factor_sizes
  if ¬ ws.all (fun w => 0 ≤ w) then .error "assert widths >= 0 failed"
  else if ¬ ls.all (fun l => 0 ≤ l) then .error "assert lengths >= 0 failed"
  else if ws.length ≠ ls.length then .error "shape mismatch"
  else if ¬ (List.zipWith (fun w _ => (w == (0 : ℚ))) ws ls
              = List.zipWith (fun _ l => (l == (0 : ℚ))) ws ls) then
    .error "assert eq(widths == 0, lengths == 0) failed"
  else
    pure (meanQ (List.zipWith (· / ·)
      (List.zipWith (fun w l => if l = (0 : ℚ) then 0 else w) ws ls)
      (ls.map (fun l => if l = (0 : ℚ) then 1 else l))))

/-- The per-factor estimated lengths:
`fs_ave_lengths = (factor_sizes - 1) * fs_ave_deltas`. -/
def fs_lengths (factor_sizes : List ℕ) (deltas : List ℚ) : List ℚ :=
  List.zipWith (fun (sz : ℕ) (d : ℚ) => ((sz : ℚ) - 1) * d) factor_sizes deltas

/-- The per-factor `ave_width` column of the collated measures
(`p_fs_measures[p]['fs_ave_widths']`): `j = 0` is `p=1`, `j = 1` is
`p=2`. -/
def msW (ms : List (List (ℚ × ℚ))) (j : ℕ) : List ℚ :=
  ms.map fun m => (m.getD j ((0 : ℚ), (0 : ℚ))).1

/-- The per-factor `ave_delta` column of the collated measures. -/
def msD (ms : List (List (ℚ × ℚ))) (j : ℕ) : List ℚ :=
  ms.map fun m => (m.getD j ((0 : ℚ), (0 : ℚ))).2

/-- The final aggregation of `metric_flatness` (source lines 82-93 plus the
length computation of lines 132-144): `ms` holds, per factor, the
`(ave_width, ave_delta)` pair for `p=1` (position 0) and `p=2`
(position 1).  Each dictionary value is a float that may be NaN. -/
def metric_results (factor_sizes : List ℕ) (ms : List (List (ℚ × ℚ))) :
    Except String (List (String × Option ℚ)) := do
  let fl ← compute_flatness (msW ms 1)
    (fs_lengths factor_sizes (msD ms 0)) factor_sizes
  let fl1 ← compute_flatness (msW ms 0)
    (fs_lengths factor_sizes (msD ms 0)) factor_sizes
  let fl2 ← compute_flatness (msW ms 1)
    (fs_lengths factor_sizes (msD ms 1)) factor_sizes
  let aw1 ← (filter_inactive_factors (msW ms 0) factor_sizes).map meanQ
  let aw2 ← (filter_inactive_factors (msW ms 1) factor_sizes).map meanQ
  let al1 ← (filter_inactive_factors (fs_lengths factor_sizes (msD ms 0))
    factor_sizes).map meanQ
  let al2 ← (filter_inactive_factors (fs_lengths factor_sizes (msD ms 1))
    factor_sizes).map meanQ
  pure [("flatness.ave_flatness", fl),
        ("flatness.ave_flatness_l1", fl1),
        ("flatness.ave_flatness_l2", fl2),
        ("flatness.ave_width_l1", aw1),
        ("flatness.ave_width_l2", aw2),
        ("flatness.ave_length_l1", al1),
        ("flatness.ave_length_l2", al2)]

/-- `metric_flatness`: run the per-factor aggregator for every factor index
(with `ps = (1, 2)`, i.e. `[nrm1, nrm2]`, and `cycle_fail = false`), then
aggregate. `samples f r` is the base factor row drawn by `sample_factors`
for factor `f`, repeat `r`. -/
def metric_flatness (factor_sizes : List ℕ)
    (F : List (List ℕ) → List Vec) (samples : ℕ → ℕ → List ℕ)
    (factor_repeats : ℕ) (batch_size : ℤ) (nrm1 nrm2 : Vec → ℚ) :
    Except String (List (String × Option ℚ)) := do
  let ms ← (List.range factor_sizes.length).mapM (fun f =>
    aggregate_measure_distances_along_factor factor_sizes F (samples f)
      (f : ℤ) factor_repeats batch_size [nrm1, nrm2] false)
  metric_results factor_sizes ms

/-- The `p = 1` norm (sum of absolute values), exact on rationals. -/
def l1norm (v : Vec) : ℚ := (v.map (fun x => |x|)).sum

/-- Written from the spec's words (§4.3): per-factor flatness is
`width / length` when `length > 0` and `0` when `length = 0`, and the
final score is the mean of these ratios over the active factors. -/
def flatness_ratio_spec (widths lengths : List ℚ) (factor_sizes : List ℕ) :
    Option ℚ :=
  meanQ ((activeIdx factor_sizes).map fun i =>
    if 0 < lengths.getD i 0 then widths.getD i 0 / lengths.getD i 0 else 0)

/-- The representation function of the spec's concrete scenario (§8): the
value `v` of the size-5 factor (column 1) maps to the 1-D latent point
`v * 2.0`. -/
def g5 (row : List ℕ) : Vec := [((row.getD 1 0 : ℕ) : ℚ) * 2]

/-!
## A store embedding for the in-place updates inside `compute_flatness`

`compute_flatness` assigns in place (`widths[lengths == 0] = 0`,
`lengths[lengths == 0] = 1`).  To talk about what the caller's tensors look
like afterwards, the tensors are placed in an explicit store of cells;
`filter_inactive_factors` allocates a fresh cell (torch advanced indexing
copies), and the in-place assignments write to cells.
-/

/-- A heap of tensors; a tensor reference is an index into `cells`. -/
structure TStore where
  cells : List (List ℚ)

/-- Read the tensor behind a reference. -/
def readT (s : TStore) (r : ℕ) : List ℚ := s.cells.getD r []

/-- Allocate a fresh tensor, returning the new store and the reference. -/
def allocT (s : TStore) (v : List ℚ) : TStore × ℕ :=
  (⟨s.cells ++ [v]⟩, s.cells.length)

/-- Overwrite the tensor behind a reference (an in-place assignment). -/
def writeT (s : TStore) (r : ℕ) (v : List ℚ) : TStore := ⟨s.cells.set r v⟩

/-- `filter_inactive_factors` on the store: advanced indexing with an index
tensor returns a fresh tensor, so the result is allocated. -/
def filter_inactive_factors_st (s : TStore) (r : ℕ) (factor_sizes : List ℕ) :
    Except String (TStore × ℕ) :=
  (filter_inactive_factors (readT s r) factor_sizes).map (allocT s)

/-- `compute_flatness` on the store: the two masked assignments are
in-place writes to the cells holding the filtered copies. -/
def compute_flatness_st (s : TStore) (wr lr : ℕ) (factor_sizes : List ℕ) :
    Except String (TStore × Option ℚ) := do
  let (s1, wr2) ← filter_inactive_factors_st s wr factor_sizes
  let (s2, lr2) ← filter_inactive_factors_st s1 lr factor_sizes
  if ¬ (readT s2 wr2).all (fun w => 0 ≤ w) then
    .error "assert widths >= 0 failed"
  else if ¬ (readT s2 lr2).all (fun l => 0 ≤ l) then
    .error "assert lengths >= 0 failed"
  else if (readT s2 wr2).length ≠ (readT s2 lr2).length then
    .error "shape mismatch"
  else if ¬ (List.zipWith (fun w _ => (w == (0 : ℚ))) (readT s2 wr2) (readT s2 lr2)
      = List.zipWith (fun _ l => (l == (0 : ℚ))) (readT s2 wr2) (readT s2 lr2)) then
    .error "assert eq(widths == 0, lengths == 0) failed"
  else
    let s3 := writeT s2 wr2 (List.zipWith (fun w l => if l = (0 : ℚ) then 0 else w)
      (readT s2 wr2) (readT s2 lr2))
    let s4 := writeT s3 lr2 ((readT s3 lr2).map (fun l => if l = (0 : ℚ) then 1 else l))
    pure (s4, meanQ (List.zipWith (· / ·) (readT s4 wr2) (readT s4 lr2)))

/-- The three `compute_flatness` calls of `metric_flatness` (source lines
83-85), sequenced on one store: `(p2 widths, p1 lengths)`, then
`(p1 widths, p1 lengths)`, then `(p2 widths, p2 lengths)`. -/
def three_flatness_calls (s : TStore) (w1r l1r w2r l2r : ℕ)
    (factor_sizes : List ℕ) :
    Except String (TStore × (Option ℚ × Option ℚ × Option ℚ)) := do
  let (sa, fl) ← compute_flatness_st s w2r l1r factor_sizes
  let (sb, fl1) ← compute_flatness_st sa w1r l1r factor_sizes
  let (sc, fl2) ← compute_flatness_st sb w2r l2r factor_sizes
  pure (sc, (fl, fl1, fl2))

/-! ## General helper lemmas -/

lemma max?_spec {l : List ℚ} {m : ℚ} (h : l.max? = some m) :
    m ∈ l ∧ ∀ x ∈ l, x ≤ m := by
  have inst : Std.Antisymm (fun (x1 x2 : ℚ) => x1 ≤ x2) :=
    ⟨fun {a b} h1 h2 => le_antisymm h1 h2⟩
  exact (List.max?_eq_some_iff (fun a => le_refl a) (fun a b => max_choice a b)
    (fun a b c => max_le_iff)).mp h

lemma max?_of_ne_nil {l : List ℚ} (h : l ≠ []) : ∃ m, l.max? = some m := by
  cases l with
  | nil => exact absurd rfl h
  | cons a as => exact ⟨as.foldl max a, rfl⟩

/-- The ascending insertion sort of a non-empty list decomposes as its
first `n - 1` elements followed by its last element. -/
lemma sort_decomp (xs : List ℚ) (n : ℕ) (h : xs.length = n) (hn : 1 ≤ n) :
    List.insertionSort (· ≤ ·) xs
      = (List.insertionSort (· ≤ ·) xs).take (n - 1)
        ++ [(List.insertionSort (· ≤ ·) xs).getD (n - 1) 0] := by
  set s := List.insertionSort (· ≤ ·) xs with hs
  have hlen : s.length = n := by
    rw [hs, List.length_insertionSort, h]
  have hlt : n - 1 < s.length := by omega
  have hdrop : s.drop (n - 1) = [s.getD (n - 1) 0] := by
    rw [List.drop_eq_getElem_cons hlt]
    have : s.drop (n - 1 + 1) = [] := by
      apply List.drop_eq_nil_of_le
      omega
    rw [this, List.getD_eq_getElem?_getD, List.getElem?_eq_getElem hlt]
    rfl
  conv_lhs => rw [← List.take_append_drop (n - 1) s]
  rw [hdrop]

/-- The last element of the ascending insertion sort is a member of the
original list and bounds every member from above. -/
lemma sort_last_spec (xs : List ℚ) (n : ℕ) (h : xs.length = n) (hn : 1 ≤ n) :
    (List.insertionSort (· ≤ ·) xs).getD (n - 1) 0 ∈ xs
      ∧ ∀ x ∈ xs, x ≤ (List.insertionSort (· ≤ ·) xs).getD (n - 1) 0 := by
  set s := List.insertionSort (· ≤ ·) xs with hs
  have hperm : s.Perm xs := List.perm_insertionSort _ xs
  have hsorted : List.Sorted (· ≤ ·) s := List.sorted_insertionSort _ xs
  have hlen : s.length = n := by rw [hs, List.length_insertionSort, h]
  have hlt : n - 1 < s.length := by omega
  have hgetD : s.getD (n - 1) 0 = s[n - 1] := by
    rw [List.getD_eq_getElem?_getD, List.getElem?_eq_getElem hlt]; rfl
  constructor
  · rw [hgetD]
    exact hperm.mem_iff.mp (List.getElem_mem hlt)
  · intro x hx
    have hxs : x ∈ s := hperm.mem_iff.mpr hx
    obtain ⟨i, hi, hxi⟩ := List.mem_iff_getElem.mp hxs
    rw [hgetD, ← hxi]
    rcases Nat.lt_or_ge i (n - 1) with hlt' | hge
    · have := List.pairwise_iff_get.mp hsorted ⟨i, hi⟩ ⟨n - 1, hlt⟩ hlt'
      simpa using this
    · have heq : i = n - 1 := by omega
      subst heq
      exact le_refl _

/-- The degenerate branch of the per-factor aggregator: a factor of size 1
yields zero measures under the default configuration. -/
lemma aggregate_size_one (factor_sizes : List ℕ)
    (F : List (List ℕ) → List Vec) (samples : ℕ → List ℕ) (f_idx : ℤ)
    (repeats : ℕ) (batch_size : ℤ) (ps : List (Vec → ℚ))
    (h1 : pyGet factor_sizes f_idx = .ok 1) :
    aggregate_measure_distances_along_factor factor_sizes F samples f_idx
      repeats batch_size ps false = .ok (ps.map fun _ => ((0 : ℚ), (0 : ℚ))) := by
  unfold aggregate_measure_distances_along_factor
  rw [h1]
  rfl

/-- The degenerate branch with `cycle_fail = true`: the raised message. -/
lemma aggregate_size_one_cycle_fail (factor_sizes : List ℕ)
    (F : List (List ℕ) → List Vec) (samples : ℕ → List ℕ) (f_idx : ℤ)
    (repeats : ℕ) (batch_size : ℤ) (ps : List (Vec → ℚ))
    (h1 : pyGet factor_sizes f_idx = .ok 1) :
    aggregate_measure_distances_along_factor factor_sizes F samples f_idx
      repeats batch_size ps true
      = .error "dataset factor size is too small for flatness metric with cycle_normalize enabled! size=1 < 2" := by
  unfold aggregate_measure_distances_along_factor
  rw [h1]
  rfl

/-! ## C6 -/

/-- C6 (amended): for a factor of size 1 the per-factor aggregator returns
`ave_width = 0` and `ave_delta = 0` for every requested norm under the
default configuration, and under the cycle-normalize-required configuration
it instead fails with a sizing error naming the offending size (the message
does not identify the factor index), before any traversal statistics are
computed — the outcome is the same for every encoder and sample stream. -/
theorem C6_size_one_behaviour (factor_sizes : List ℕ) (f_idx : ℤ)
    (repeats : ℕ) (batch_size : ℤ) (ps : List (Vec → ℚ))
    (h1 : pyGet factor_sizes f_idx = .ok 1) :
    (∀ F samples,
      aggregate_measure_distances_along_factor factor_sizes F samples f_idx
        repeats batch_size ps false = .ok (ps.map fun _ => ((0 : ℚ), (0 : ℚ))))
    ∧ (∀ F samples,
      aggregate_measure_distances_along_factor factor_sizes F samples f_idx
        repeats batch_size ps true
        = .error "dataset factor size is too small for flatness metric with cycle_normalize enabled! size=1 < 2") :=
  ⟨fun F samples => aggregate_size_one factor_sizes F samples f_idx repeats batch_size ps h1,
   fun F samples => aggregate_size_one_cycle_fail factor_sizes F samples f_idx repeats batch_size ps h1⟩

/-- C6 witness. -/
theorem C6_size_one_behaviour_witness :
    (∀ F samples,
      aggregate_measure_distances_along_factor [1, 7] F samples 0
        5 64 [l1norm] false = .ok ([l1norm].map fun _ => ((0 : ℚ), (0 : ℚ))))
    ∧ (∀ F samples,
      aggregate_measure_distances_along_factor [1, 7] F samples 0
        5 64 [l1norm] true
        = .error "dataset factor size is too small for flatness metric with cycle_normalize enabled! size=1 < 2") :=
  C6_size_one_behaviour [1, 7] 0 5 64 [l1norm] (by rfl)

/-- C6 counterexample: the sizing error does not name the offending factor:
two calls whose offending factors are different (factor 0 of `[1, 7]` and
factor 1 of `[7, 1]`) raise the identical message, which carries only the
size. -/
theorem C6_counterexample_error_names_no_factor :
    aggregate_measure_distances_along_factor [1, 7] (fun _ => []) (fun _ => []) 0
        5 64 [l1norm] true
      = .error "dataset factor size is too small for flatness metric with cycle_normalize enabled! size=1 < 2"
    ∧ aggregate_measure_distances_along_factor [7, 1] (fun _ => []) (fun _ => []) 1
        5 64 [l1norm] true
      = .error "dataset factor size is too small for flatness metric with cycle_normalize enabled! size=1 < 2" :=
  ⟨rfl, rfl⟩

/-! ## C9 -/

lemma ok_bind {α β : Type} (a : α) (f : α → Except String β) :
    ((Except.ok a : Except String α) >>= f) = f a := rfl

lemma pyGet_high_error (xs : List α) (i : ℤ)
    (h : (xs.length : ℤ) ≤ i ∨ i < -(xs.length : ℤ)) :
    pyGet xs i = .error "list index out of range" := by
  unfold pyGet
  rcases h with h | h
  · have hnonneg : ¬ i < 0 := by omega
    simp only [hnonneg, if_false]
    have hge : xs.length ≤ i.toNat := by omega
    rw [List.getElem?_eq_none hge]
  · have hneg : i < 0 := by omega
    simp only [hneg, if_true]
    rw [if_pos (by omega)]

/-- C9 (amended): a factor index at or beyond `num_factors` (or below
`-num_factors`; indices in `-num_factors..-1` wrap per Python indexing)
raises an index error before anything is computed; a non-positive
`batch_size` raises the chunking precondition error before any encoding or
distance computation; `knn` with `k` outside `1 .. population size` raises
its precondition error before computing any distance.  No partial results
are returned in any of these cases. -/
theorem C9_precondition_failures :
    (∀ (factor_sizes : List ℕ) F samples (f : ℤ) repeats b ps cf,
      ((factor_sizes.length : ℤ) ≤ f ∨ f < -(factor_sizes.length : ℤ)) →
      aggregate_measure_distances_along_factor factor_sizes F samples f repeats b ps cf
        = .error "list index out of range")
    ∧ (∀ (factor_sizes : List ℕ) F samples (f : ℤ) (n : ℕ) repeats b ps cf,
      pyGet factor_sizes f = .ok n → 2 ≤ n → 0 < repeats → b ≤ 0 →
      aggregate_measure_distances_along_factor factor_sizes F samples f repeats b ps cf
        = .error "chunked: chunk_size must be positive")
    ∧ (∀ x y (k : ℤ) largest nrm, ¬ (0 < k ∧ k ≤ (y.length : ℤ)) →
      knn x y k largest nrm = .error "knn: assert 0 < k <= y.shape[0] failed") := by
  refine ⟨?_, ?_, ?_⟩
  · intro factor_sizes F samples f repeats b ps cf h
    unfold aggregate_measure_distances_along_factor
    rw [pyGet_high_error factor_sizes f h]
    rfl
  · intro factor_sizes F samples f n repeats b ps cf hget hn hrep hb
    unfold aggregate_measure_distances_along_factor
    rw [hget, ok_bind]
    have hne : ¬ n = 1 := by omega
    rw [if_neg hne]
    obtain ⟨r, hr⟩ : ∃ r, repeats = r + 1 := ⟨repeats - 1, by omega⟩
    subst hr
    rw [List.range_succ_eq_map, List.mapM_cons]
    have henc : encode_all_along_factor factor_sizes F (samples 0) f b
        = .error "chunked: chunk_size must be positive" := by
      unfold encode_all_along_factor
      rw [hget, ok_bind]
      unfold encode_all_factors chunked
      rw [if_pos hb]
      rfl
    have hbody : (do
        let zs ← encode_all_along_factor factor_sizes F (samples 0) f b
        ps.mapM (fun nrm => measure_one nrm n zs))
        = (.error "chunked: chunk_size must be positive"
            : Except String (List (ℚ × List ℚ))) := by
      rw [henc]
      rfl
    rw [hbody]
    rfl
  · intro x y k largest nrm h
    unfold knn
    rw [if_pos h]

/-- C9 witness for the amended claim. -/
theorem C9_precondition_failures_witness :
    aggregate_measure_distances_along_factor [3] (fun _ => ([] : List Vec)) (fun _ => []) 1
        2 64 [l1norm] false = .error "list index out of range"
    ∧ aggregate_measure_distances_along_factor [3] (fun _ => ([] : List Vec)) (fun _ => []) 0
        2 0 [l1norm] false = .error "chunked: chunk_size must be positive"
    ∧ knn [[(0 : ℚ)]] [[(0 : ℚ)]] 2 false l1norm
        = .error "knn: assert 0 < k <= y.shape[0] failed" :=
  ⟨C9_precondition_failures.1 [3] (fun _ => ([] : List Vec)) (fun _ => []) 1 2 64 [l1norm] false
      (by decide),
   C9_precondition_failures.2.1 [3] (fun _ => ([] : List Vec)) (fun _ => []) 0 3 2 0 [l1norm] false
      (by rfl) (by decide) (by decide) (by decide),
   C9_precondition_failures.2.2 [[(0 : ℚ)]] [[(0 : ℚ)]] 2 false l1norm (by decide)⟩

/-- C9 counterexample: a negative factor index (here `-1`, outside the
claimed range `0 .. num_factors - 1`) does not fail fast: Python indexing
wraps it to the last factor and the aggregator returns a result. -/
theorem C9_counterexample_negative_index_succeeds :
    isOkE (aggregate_measure_distances_along_factor [3]
      (fun xs => xs.map (fun row => [((row.getD 0 0 : ℕ) : ℚ)]))
      (fun _ => [0]) (-1) 1 64 [l1norm] false) = true := by
  with_unfolding_all rfl

/-! ## C3 -/

lemma rawCyclicDeltas_length (nrm : Vec → ℚ) (zs : List Vec) :
    (rawCyclicDeltas nrm zs).length = zs.length := by
  unfold rawCyclicDeltas
  rw [List.length_map, List.length_range]

lemma rawCyclicDeltas_getD (nrm : Vec → ℚ) (zs : List Vec) (i : ℕ)
    (hi : i < zs.length) :
    (rawCyclicDeltas nrm zs).getD i 0
      = nrm (vsub (zs.getD i []) (zs.getD ((i + 1) % zs.length) [])) := by
  unfold rawCyclicDeltas
  rw [List.getD_eq_getElem?_getD, List.getElem?_map, List.getElem?_range hi]
  rfl

/-- C3: for a traversal of size `n ≥ 2` and any norm, the per-repeat delta
set is computed from the `n` raw cyclic-successor distances (point `i` to
point `(i+1) mod n`), of which exactly the `n - 1` smallest are kept,
discarding a single largest raw delta. -/
theorem C3_cyclic_deltas_drop_largest (nrm : Vec → ℚ) (zs : List Vec)
    (n : ℕ) (hn : zs.length = n) (h2 : 2 ≤ n) :
    (rawCyclicDeltas nrm zs).length = n
    ∧ (∀ i, i < n → (rawCyclicDeltas nrm zs).getD i 0
        = nrm (vsub (zs.getD i []) (zs.getD ((i + 1) % n) [])))
    ∧ ∃ kept, topk_smallest (rawCyclicDeltas nrm zs) (n - 1) = .ok kept
        ∧ kept.length = n - 1
        ∧ ∃ dmax, dmax ∈ rawCyclicDeltas nrm zs
            ∧ (∀ x ∈ rawCyclicDeltas nrm zs, x ≤ dmax)
            ∧ (↑(rawCyclicDeltas nrm zs) : Multiset ℚ) = dmax ::ₘ (↑kept : Multiset ℚ) := by
  set raw := rawCyclicDeltas nrm zs with hraw
  have hlen : raw.length = n := by rw [hraw, rawCyclicDeltas_length, hn]
  refine ⟨hlen, ?_, ?_⟩
  · intro i hi
    rw [hraw, rawCyclicDeltas_getD nrm zs i (by omega), hn]
  · have hk : n - 1 ≤ raw.length := by omega
    refine ⟨(List.insertionSort (· ≤ ·) raw).take (n - 1), ?_, ?_, ?_⟩
    · unfold topk_smallest
      rw [if_pos hk]
    · rw [List.length_take, List.length_insertionSort, hlen]
      omega
    · obtain ⟨hmem, hmax⟩ := sort_last_spec raw n hlen (by omega)
      refine ⟨(List.insertionSort (· ≤ ·) raw).getD (n - 1) 0, hmem, hmax, ?_⟩
      have hperm : raw.Perm
          ((List.insertionSort (· ≤ ·) raw).getD (n - 1) 0
            :: (List.insertionSort (· ≤ ·) raw).take (n - 1)) := by
        have h1 : raw.Perm (List.insertionSort (· ≤ ·) raw) :=
          (List.perm_insertionSort _ raw).symm
        have h2' := sort_decomp raw n hlen (by omega)
        have h3 : ((List.insertionSort (· ≤ ·) raw).take (n - 1)
            ++ [(List.insertionSort (· ≤ ·) raw).getD (n - 1) 0]).Perm
            ((List.insertionSort (· ≤ ·) raw).getD (n - 1) 0
              :: (List.insertionSort (· ≤ ·) raw).take (n - 1)) :=
          List.perm_append_singleton _ _
        have h4 : (List.insertionSort (· ≤ ·) raw).Perm
            ((List.insertionSort (· ≤ ·) raw).getD (n - 1) 0
              :: (List.insertionSort (· ≤ ·) raw).take (n - 1)) := by
          conv_lhs => rw [h2']
          exact h3
        exact h1.trans h4
      exact_mod_cast Multiset.coe_eq_coe.mpr hperm

/-- C3 witness. -/
theorem C3_cyclic_deltas_drop_largest_witness :
    (rawCyclicDeltas l1norm [[(0 : ℚ)], [2], [8]]).length = 3
    ∧ (∀ i, i < 3 → (rawCyclicDeltas l1norm [[(0 : ℚ)], [2], [8]]).getD i 0
        = l1norm (vsub (([[(0 : ℚ)], [2], [8]] : List Vec).getD i [])
            (([[(0 : ℚ)], [2], [8]] : List Vec).getD ((i + 1) % 3) [])))
    ∧ ∃ kept, topk_smallest (rawCyclicDeltas l1norm [[(0 : ℚ)], [2], [8]]) (3 - 1) = .ok kept
        ∧ kept.length = 3 - 1
        ∧ ∃ dmax, dmax ∈ rawCyclicDeltas l1norm [[(0 : ℚ)], [2], [8]]
            ∧ (∀ x ∈ rawCyclicDeltas l1norm [[(0 : ℚ)], [2], [8]], x ≤ dmax)
            ∧ (↑(rawCyclicDeltas l1norm [[(0 : ℚ)], [2], [8]]) : Multiset ℚ)
                = dmax ::ₘ (↑kept : Multiset ℚ) :=
  C3_cyclic_deltas_drop_largest l1norm [[(0 : ℚ)], [2], [8]] 3 (by rfl) (by decide)

/-! ## C2 -/

/-- `topk(row, k=1, largest=True)` returns the singleton holding the
maximum of a non-empty row. -/
lemma topkList_one_largest (row : List ℚ) (hne : row ≠ []) :
    ∃ m, topkList row 1 true = [m] ∧ m ∈ row ∧ ∀ x ∈ row, x ≤ m := by
  set n := row.length with hn
  have hpos : 1 ≤ n := by
    rw [hn]
    exact List.length_pos.mpr hne
  obtain ⟨hmem, hmax⟩ := sort_last_spec row n rfl hpos
  refine ⟨(List.insertionSort (· ≤ ·) row).getD (n - 1) 0, ?_, hmem, hmax⟩
  unfold topkList
  rw [if_pos rfl]
  conv_lhs => rw [sort_decomp row n rfl hpos]
  rw [List.reverse_append]
  rfl

lemma mem_rowDists {nrm : Vec → ℚ} {zs : List Vec} {a : Vec} {x : ℚ}
    (hx : x ∈ zs.map (fun b => nrm (vsub a b))) :
    ∃ b ∈ zs, x = nrm (vsub a b) := by
  obtain ⟨b, hb, hxb⟩ := List.mem_map.mp hx
  exact ⟨b, hb, hxb.symm⟩

/-- The per-repeat width is the diameter: it bounds every pairwise
distance and is attained by one. -/
lemma traversal_width_spec (nrm : Vec → ℚ) (zs : List Vec) (d : ℕ)
    (hne : zs ≠ []) (hrect : ∀ v ∈ zs, v.length = d) :
    ∃ w, traversal_width nrm zs = .ok w
      ∧ (∀ a ∈ zs, ∀ b ∈ zs, nrm (vsub a b) ≤ w)
      ∧ (∃ a ∈ zs, ∃ b ∈ zs, w = nrm (vsub a b)) := by
  classical
  have hpos : 0 < zs.length := List.length_pos.mpr hne
  have hknn : knn zs zs 1 true nrm
      = .ok ((zs.map fun a => zs.map fun b => nrm (vsub a b)).map
          (fun row => topkList row 1 true)) := by
    unfold knn
    rw [if_neg, if_neg]
    · rfl
    · simp only [not_not, List.all_eq_true, decide_eq_true_eq]
      intro v hv w hw
      rw [hrect v hv, hrect w hw]
    · rw [not_not]
      exact ⟨one_pos, by exact_mod_cast hpos⟩
  set vals := (zs.map fun a => zs.map fun b => nrm (vsub a b)).map
      (fun row => topkList row 1 true) with hvals
  -- every element of `vals` is the singleton of a row maximum
  have hrowmax : ∀ l ∈ vals, ∃ a ∈ zs, ∃ m, l = [m]
      ∧ m ∈ zs.map (fun b => nrm (vsub a b))
      ∧ ∀ x ∈ zs.map (fun b => nrm (vsub a b)), x ≤ m := by
    intro l hl
    obtain ⟨row, hrow, hlrow⟩ := List.mem_map.mp hl
    obtain ⟨a, ha, harow⟩ := List.mem_map.mp hrow
    have hrne : row ≠ [] := by
      rw [← harow]
      simp only [ne_eq, List.map_eq_nil_iff]
      exact hne
    obtain ⟨m, hm1, hm2, hm3⟩ := topkList_one_largest row hrne
    refine ⟨a, ha, m, ?_, ?_, ?_⟩
    · rw [← hlrow, hm1]
    · rw [harow]; exact hm2
    · rw [harow]; exact hm3
  -- the flattened value list is non-empty
  obtain ⟨z0, zrest, hz⟩ : ∃ z0 zrest, zs = z0 :: zrest := by
    cases zs with
    | nil => exact absurd rfl hne
    | cons z0 zrest => exact ⟨z0, zrest, rfl⟩
  have hv0 : (zs.map fun b => nrm (vsub z0 b)).length = zs.length := by
    rw [List.length_map]
  have hl0 : topkList (zs.map fun b => nrm (vsub z0 b)) 1 true ∈ vals := by
    rw [hvals]
    exact List.mem_map_of_mem _ (List.mem_map_of_mem _ (by rw [hz]; exact List.mem_cons_self z0 zrest))
  have hfne : vals.flatten ≠ [] := by
    obtain ⟨a, _, m, hm1, _, _⟩ := hrowmax _ hl0
    intro hcon
    have : m ∈ vals.flatten := List.mem_flatten.mpr ⟨_, hl0, by rw [hm1]; exact List.mem_singleton_self m⟩
    rw [hcon] at this
    exact List.not_mem_nil m this
  obtain ⟨w, hw⟩ := max?_of_ne_nil hfne
  obtain ⟨hwmem, hwmax⟩ := max?_spec hw
  refine ⟨w, ?_, ?_, ?_⟩
  · unfold traversal_width
    rw [hknn, ok_bind]
    unfold tensorMax
    rw [hw]
  · intro a ha b hb
    have hrne : (zs.map fun c => nrm (vsub a c)) ≠ [] := by
      simp only [ne_eq, List.map_eq_nil_iff]
      exact hne
    obtain ⟨m, hm1, hm2, hm3⟩ := topkList_one_largest _ hrne
    have hlmem : topkList (zs.map fun c => nrm (vsub a c)) 1 true ∈ vals := by
      rw [hvals]
      exact List.mem_map_of_mem _ (List.mem_map_of_mem _ ha)
    have hmflat : m ∈ vals.flatten :=
      List.mem_flatten.mpr ⟨_, hlmem, by rw [hm1]; exact List.mem_singleton_self m⟩
    have hab : nrm (vsub a b) ≤ m :=
      hm3 _ (List.mem_map_of_mem _ hb)
    exact hab.trans (hwmax _ hmflat)
  · obtain ⟨l, hl, hwl⟩ := List.mem_flatten.mp hwmem
    obtain ⟨a, ha, m, hm1, hm2, _⟩ := hrowmax _ hl
    rw [hm1] at hwl
    have hwm : w = m := List.mem_singleton.mp hwl
    obtain ⟨b, hb, hmb⟩ := mem_rowDists hm2
    exact ⟨a, ha, b, hb, by rw [hwm, hmb]⟩

/-- C2: for a traversal of at least 2 points and any norm, the per-repeat
width (`knn(zs, zs, k=1, largest=True).values.max()`) is the diameter of
the point set: it bounds every pairwise distance and is attained by one
pair. -/
theorem C2_width_is_diameter (nrm : Vec → ℚ) (zs : List Vec) (d : ℕ)
    (h2 : 2 ≤ zs.length) (hrect : ∀ v ∈ zs, v.length = d) :
    ∃ w, traversal_width nrm zs = .ok w
      ∧ (∀ a ∈ zs, ∀ b ∈ zs, nrm (vsub a b) ≤ w)
      ∧ (∃ a ∈ zs, ∃ b ∈ zs, w = nrm (vsub a b)) :=
  traversal_width_spec nrm zs d
    (by intro h; rw [h] at h2; simp at h2) hrect

/-- C2 witness. -/
theorem C2_width_is_diameter_witness :
    ∃ w, traversal_width l1norm [[(0 : ℚ)], [5]] = .ok w
      ∧ (∀ a ∈ ([[(0 : ℚ)], [5]] : List Vec), ∀ b ∈ ([[(0 : ℚ)], [5]] : List Vec),
          l1norm (vsub a b) ≤ w)
      ∧ (∃ a ∈ ([[(0 : ℚ)], [5]] : List Vec), ∃ b ∈ ([[(0 : ℚ)], [5]] : List Vec),
          w = l1norm (vsub a b)) :=
  C2_width_is_diameter l1norm [[(0 : ℚ)], [5]] 1 (by decide) (by decide)

/-! ## C4 -/

lemma activeIdx_lt {factor_sizes : List ℕ} {i : ℕ}
    (h : i ∈ activeIdx factor_sizes) : i < factor_sizes.length := by
  unfold activeIdx at h
  exact List.mem_range.mp (List.mem_of_mem_filter h)

lemma activeIdx_append_one (factor_sizes : List ℕ) :
    activeIdx (factor_sizes ++ [1]) = activeIdx factor_sizes := by
  unfold activeIdx
  have hlen : (factor_sizes ++ [1]).length = factor_sizes.length + 1 := by simp
  rw [hlen, List.range_succ, List.filter_append]
  have h1 : List.filter (fun i => decide ((factor_sizes ++ [1]).getD i 0 ≠ 1))
      [factor_sizes.length] = [] := by
    have : (factor_sizes ++ [1]).getD factor_sizes.length 0 = 1 := by
      rw [List.getD_append_right _ _ _ _ (le_refl _), Nat.sub_self]
      rfl
    simp [this]
  have h2 : List.filter (fun i => decide ((factor_sizes ++ [1]).getD i 0 ≠ 1))
      (List.range factor_sizes.length)
      = List.filter (fun i => decide (factor_sizes.getD i 0 ≠ 1))
      (List.range factor_sizes.length) := by
    apply List.filter_congr
    intro i hi
    rw [List.getD_append _ _ _ _ (List.mem_range.mp hi)]
  rw [h1, h2, List.append_nil]

lemma filter_inactive_append_one (t : List ℚ) (x : ℚ) (factor_sizes : List ℕ)
    (ht : t.length = factor_sizes.length) :
    filter_inactive_factors (t ++ [x]) (factor_sizes ++ [1])
      = filter_inactive_factors t factor_sizes := by
  unfold filter_inactive_factors
  rw [activeIdx_append_one]
  have hany : ((factor_sizes ++ [1]).any fun s => decide (s = 0))
      = (factor_sizes.any fun s => decide (s = 0)) := by
    simp
  rw [hany]
  by_cases h0 : (factor_sizes.any fun s => decide (s = 0)) = true
  · rw [if_pos h0, if_pos h0]
  · rw [if_neg h0, if_neg h0]
    have hall1 : ((activeIdx factor_sizes).all fun i => decide (i < (t ++ [x]).length)) = true := by
      rw [List.all_eq_true]
      intro i hi
      have := activeIdx_lt hi
      simp only [decide_eq_true_eq, List.length_append, List.length_cons,
        List.length_nil]
      omega
    have hall2 : ((activeIdx factor_sizes).all fun i => decide (i < t.length)) = true := by
      rw [List.all_eq_true]
      intro i hi
      have := activeIdx_lt hi
      simp only [decide_eq_true_eq]
      omega
    rw [if_pos hall1, if_pos hall2]
    congr 1
    apply List.map_congr_left
    intro i hi
    have hilt : i < t.length := by
      have := activeIdx_lt hi
      omega
    rw [List.getD_append _ _ _ _ hilt]

lemma compute_flatness_append_one (w l : List ℚ) (a b : ℚ)
    (factor_sizes : List ℕ) (hw : w.length = factor_sizes.length)
    (hl : l.length = factor_sizes.length) :
    compute_flatness (w ++ [a]) (l ++ [b]) (factor_sizes ++ [1])
      = compute_flatness w l factor_sizes := by
  unfold compute_flatness
  rw [filter_inactive_append_one w a factor_sizes hw,
      filter_inactive_append_one l b factor_sizes hl]

lemma msW_append (ms : List (List (ℚ × ℚ))) (z : List (ℚ × ℚ)) (j : ℕ) :
    msW (ms ++ [z]) j = msW ms j ++ [(z.getD j ((0 : ℚ), (0 : ℚ))).1] := by
  simp [msW]

lemma msD_append (ms : List (List (ℚ × ℚ))) (z : List (ℚ × ℚ)) (j : ℕ) :
    msD (ms ++ [z]) j = msD ms j ++ [(z.getD j ((0 : ℚ), (0 : ℚ))).2] := by
  simp [msD]

lemma fs_lengths_append (factor_sizes : List ℕ) (d : List ℚ) (s : ℕ) (x : ℚ)
    (h : factor_sizes.length = d.length) :
    fs_lengths (factor_sizes ++ [s]) (d ++ [x])
      = fs_lengths factor_sizes d ++ [((s : ℚ) - 1) * x] := by
  unfold fs_lengths
  rw [List.zipWith_append _ _ _ _ _ h]
  rfl

/-- C4: appending a factor of size 1 (with its per-factor measures, which
the aggregator makes zero — indeed with any measures at all) to the factor
list changes none of the seven final scores. -/
theorem C4_inactive_factor_invariance (factor_sizes : List ℕ)
    (ms : List (List (ℚ × ℚ))) (z : List (ℚ × ℚ))
    (h : ms.length = factor_sizes.length) :
    metric_results (factor_sizes ++ [1]) (ms ++ [z])
      = metric_results factor_sizes ms := by
  have hW : ∀ j, (msW ms j).length = factor_sizes.length := by
    intro j; simp [msW, h]
  have hD : ∀ j, factor_sizes.length = (msD ms j).length := by
    intro j; simp [msD, h]
  have hL : ∀ j, (fs_lengths factor_sizes (msD ms j)).length = factor_sizes.length := by
    intro j
    simp [fs_lengths, msD, h]
  have e1 : compute_flatness (msW (ms ++ [z]) 1)
      (fs_lengths (factor_sizes ++ [1]) (msD (ms ++ [z]) 0)) (factor_sizes ++ [1])
      = compute_flatness (msW ms 1) (fs_lengths factor_sizes (msD ms 0)) factor_sizes := by
    rw [msW_append, msD_append, fs_lengths_append _ _ _ _ (hD 0),
        compute_flatness_append_one _ _ _ _ _ (hW 1) (hL 0)]
  have e2 : compute_flatness (msW (ms ++ [z]) 0)
      (fs_lengths (factor_sizes ++ [1]) (msD (ms ++ [z]) 0)) (factor_sizes ++ [1])
      = compute_flatness (msW ms 0) (fs_lengths factor_sizes (msD ms 0)) factor_sizes := by
    rw [msW_append, msD_append, fs_lengths_append _ _ _ _ (hD 0),
        compute_flatness_append_one _ _ _ _ _ (hW 0) (hL 0)]
  have e3 : compute_flatness (msW (ms ++ [z]) 1)
      (fs_lengths (factor_sizes ++ [1]) (msD (ms ++ [z]) 1)) (factor_sizes ++ [1])
      = compute_flatness (msW ms 1) (fs_lengths factor_sizes (msD ms 1)) factor_sizes := by
    rw [msW_append, msD_append, fs_lengths_append _ _ _ _ (hD 1),
        compute_flatness_append_one _ _ _ _ _ (hW 1) (hL 1)]
  have f1 : filter_inactive_factors (msW (ms ++ [z]) 0) (factor_sizes ++ [1])
      = filter_inactive_factors (msW ms 0) factor_sizes := by
    rw [msW_append, filter_inactive_append_one _ _ _ (hW 0)]
  have f2 : filter_inactive_factors (msW (ms ++ [z]) 1) (factor_sizes ++ [1])
      = filter_inactive_factors (msW ms 1) factor_sizes := by
    rw [msW_append, filter_inactive_append_one _ _ _ (hW 1)]
  have f3 : filter_inactive_factors
      (fs_lengths (factor_sizes ++ [1]) (msD (ms ++ [z]) 0)) (factor_sizes ++ [1])
      = filter_inactive_factors (fs_lengths factor_sizes (msD ms 0)) factor_sizes := by
    rw [msD_append, fs_lengths_append _ _ _ _ (hD 0),
        filter_inactive_append_one _ _ _ (hL 0)]
  have f4 : filter_inactive_factors
      (fs_lengths (factor_sizes ++ [1]) (msD (ms ++ [z]) 1)) (factor_sizes ++ [1])
      = filter_inactive_factors (fs_lengths factor_sizes (msD ms 1)) factor_sizes := by
    rw [msD_append, fs_lengths_append _ _ _ _ (hD 1),
        filter_inactive_append_one _ _ _ (hL 1)]
  unfold metric_results
  rw [e1, e2, e3, f1, f2, f3, f4]

/-- C4 witness. -/
theorem C4_inactive_factor_invariance_witness :
    metric_results ([2] ++ [1]) ([[((1 : ℚ), (1 : ℚ)), ((1 : ℚ), (1 : ℚ))]]
        ++ [[((0 : ℚ), (0 : ℚ)), ((0 : ℚ), (0 : ℚ))]])
      = metric_results [2] [[((1 : ℚ), (1 : ℚ)), ((1 : ℚ), (1 : ℚ))]] :=
  C4_inactive_factor_invariance [2] [[((1 : ℚ), (1 : ℚ)), ((1 : ℚ), (1 : ℚ))]]
    [((0 : ℚ), (0 : ℚ)), ((0 : ℚ), (0 : ℚ))] (by decide)

/-! ## C1 -/

lemma map_ok {α β : Type} (a : α) (f : α → β) :
    (Except.ok a : Except String α).map f = .ok (f a) := rfl

lemma zipWith_map_same {α β γ δ : Type _} (f : β → γ → δ) (g : α → β)
    (h : α → γ) (A : List α) :
    List.zipWith f (A.map g) (A.map h) = A.map (fun a => f (g a) (h a)) := by
  induction A with
  | nil => rfl
  | cons a as ih => simp [ih]

lemma filter_inactive_eq_map (t : List ℚ) (factor_sizes : List ℕ)
    (hlen : t.length = factor_sizes.length)
    (hsz : ∀ s ∈ factor_sizes, 1 ≤ s) :
    filter_inactive_factors t factor_sizes
      = .ok ((activeIdx factor_sizes).map (fun i => t.getD i 0)) := by
  unfold filter_inactive_factors
  have hc1 : ¬ ((factor_sizes.any fun s => decide (s = 0)) = true) := by
    simp only [List.any_eq_true, decide_eq_true_eq]
    rintro ⟨s, hs, h0⟩
    have := hsz s hs
    omega
  rw [if_neg hc1]
  have hc2 : ((activeIdx factor_sizes).all fun i => decide (i < t.length)) = true := by
    rw [List.all_eq_true]
    intro i hi
    have := activeIdx_lt hi
    simp only [decide_eq_true_eq]
    omega
  rw [if_pos hc2]

/-- `compute_flatness` refines the spec's formula: under the zero-pattern
invariant, it returns the mean over active factors of
`width / length` when `length > 0`, else `0`. -/
lemma compute_flatness_eq_spec (ws ls : List ℚ) (factor_sizes : List ℕ)
    (hwlen : ws.length = factor_sizes.length)
    (hllen : ls.length = factor_sizes.length)
    (hsz : ∀ s ∈ factor_sizes, 1 ≤ s)
    (hnn : ∀ i ∈ activeIdx factor_sizes, 0 ≤ ws.getD i 0 ∧ 0 ≤ ls.getD i 0)
    (hinv : ∀ i ∈ activeIdx factor_sizes, (ws.getD i 0 = 0 ↔ ls.getD i 0 = 0)) :
    compute_flatness ws ls factor_sizes
      = .ok (flatness_ratio_spec ws ls factor_sizes) := by
  unfold compute_flatness
  rw [filter_inactive_eq_map ws _ hwlen hsz, ok_bind,
      filter_inactive_eq_map ls _ hllen hsz, ok_bind]
  set A := activeIdx factor_sizes with hA
  have hWall : ((A.map fun i => ws.getD i 0).all fun w => decide (0 ≤ w)) = true := by
    rw [List.all_eq_true]
    intro x hx
    obtain ⟨i, hi, hxi⟩ := List.mem_map.mp hx
    rw [← hxi]
    simp only [decide_eq_true_eq]
    exact (hnn i hi).1
  have hLall : ((A.map fun i => ls.getD i 0).all fun l => decide (0 ≤ l)) = true := by
    rw [List.all_eq_true]
    intro x hx
    obtain ⟨i, hi, hxi⟩ := List.mem_map.mp hx
    rw [← hxi]
    simp only [decide_eq_true_eq]
    exact (hnn i hi).2
  rw [if_neg (fun hc => hc hWall), if_neg (fun hc => hc hLall),
      if_neg (fun hc => hc (by simp))]
  have hzip : List.zipWith (fun w _ => (w == (0 : ℚ)))
        (A.map fun i => ws.getD i 0) (A.map fun i => ls.getD i 0)
      = List.zipWith (fun _ l => (l == (0 : ℚ)))
        (A.map fun i => ws.getD i 0) (A.map fun i => ls.getD i 0) := by
    rw [zipWith_map_same, zipWith_map_same]
    apply List.map_congr_left
    intro i hi
    rw [Bool.eq_iff_iff, beq_iff_eq, beq_iff_eq]
    exact hinv i hi
  rw [if_neg (fun hc => hc hzip)]
  rw [zipWith_map_same, List.map_map, zipWith_map_same]
  unfold flatness_ratio_spec
  rw [← hA]
  congr 2
  apply List.map_congr_left
  intro i hi
  simp only [Function.comp_apply]
  by_cases h0 : ls.getD i 0 = 0
  · rw [if_pos h0, if_pos h0, if_neg (by rw [h0]; exact lt_irrefl 0)]
    norm_num
  · rw [if_neg h0, if_neg h0,
      if_pos (lt_of_le_of_ne (hnn i hi).2 (Ne.symm h0))]

/-- C1: under the per-factor zero-pattern invariant, every final flatness
score is the mean over active factors of the per-factor ratio
(`width / length` when `length > 0`, else `0`), where `ave_flatness` pairs
the `p=2` widths with the `p=1` lengths, `ave_flatness_l1` pairs `p=1`
with `p=1`, and `ave_flatness_l2` pairs `p=2` with `p=2`. -/
theorem C1_flatness_scores_are_ratio_means (factor_sizes : List ℕ)
    (ms : List (List (ℚ × ℚ)))
    (hlen : ms.length = factor_sizes.length)
    (hsz : ∀ s ∈ factor_sizes, 1 ≤ s)
    (hnn : ∀ i ∈ activeIdx factor_sizes,
        (0 ≤ (msW ms 0).getD i 0 ∧ 0 ≤ (msW ms 1).getD i 0)
        ∧ (0 ≤ (fs_lengths factor_sizes (msD ms 0)).getD i 0
            ∧ 0 ≤ (fs_lengths factor_sizes (msD ms 1)).getD i 0))
    (hinv : ∀ i ∈ activeIdx factor_sizes,
        ((msW ms 1).getD i 0 = 0 ↔ (fs_lengths factor_sizes (msD ms 0)).getD i 0 = 0)
        ∧ ((msW ms 0).getD i 0 = 0 ↔ (fs_lengths factor_sizes (msD ms 0)).getD i 0 = 0)
        ∧ ((msW ms 1).getD i 0 = 0 ↔ (fs_lengths factor_sizes (msD ms 1)).getD i 0 = 0)) :
    metric_results factor_sizes ms = .ok
      [("flatness.ave_flatness",
          flatness_ratio_spec (msW ms 1) (fs_lengths factor_sizes (msD ms 0)) factor_sizes),
       ("flatness.ave_flatness_l1",
          flatness_ratio_spec (msW ms 0) (fs_lengths factor_sizes (msD ms 0)) factor_sizes),
       ("flatness.ave_flatness_l2",
          flatness_ratio_spec (msW ms 1) (fs_lengths factor_sizes (msD ms 1)) factor_sizes),
       ("flatness.ave_width_l1",
          meanQ ((activeIdx factor_sizes).map fun i => (msW ms 0).getD i 0)),
       ("flatness.ave_width_l2",
          meanQ ((activeIdx factor_sizes).map fun i => (msW ms 1).getD i 0)),
       ("flatness.ave_length_l1",
          meanQ ((activeIdx factor_sizes).map fun i =>
            (fs_lengths factor_sizes (msD ms 0)).getD i 0)),
       ("flatness.ave_length_l2",
          meanQ ((activeIdx factor_sizes).map fun i =>
            (fs_lengths factor_sizes (msD ms 1)).getD i 0))] := by
  have hWlen : ∀ j, (msW ms j).length = factor_sizes.length := by
    intro j; simp [msW, hlen]
  have hLlen : ∀ j, (fs_lengths factor_sizes (msD ms j)).length = factor_sizes.length := by
    intro j; simp [fs_lengths, msD, hlen]
  unfold metric_results
  rw [compute_flatness_eq_spec _ _ _ (hWlen 1) (hLlen 0) hsz
        (fun i hi => ⟨(hnn i hi).1.2, (hnn i hi).2.1⟩)
        (fun i hi => (hinv i hi).1), ok_bind,
      compute_flatness_eq_spec _ _ _ (hWlen 0) (hLlen 0) hsz
        (fun i hi => ⟨(hnn i hi).1.1, (hnn i hi).2.1⟩)
        (fun i hi => (hinv i hi).2.1), ok_bind,
      compute_flatness_eq_spec _ _ _ (hWlen 1) (hLlen 1) hsz
        (fun i hi => ⟨(hnn i hi).1.2, (hnn i hi).2.2⟩)
        (fun i hi => (hinv i hi).2.2), ok_bind,
      filter_inactive_eq_map _ _ (hWlen 0) hsz,
      filter_inactive_eq_map _ _ (hWlen 1) hsz,
      filter_inactive_eq_map _ _ (hLlen 0) hsz,
      filter_inactive_eq_map _ _ (hLlen 1) hsz]
  rfl

/-- C1 witness. -/
theorem C1_flatness_scores_are_ratio_means_witness :
    metric_results [2] [[((3 : ℚ), (1 : ℚ)), ((4 : ℚ), (1 : ℚ))]] = .ok
      [("flatness.ave_flatness",
          flatness_ratio_spec (msW [[((3 : ℚ), (1 : ℚ)), ((4 : ℚ), (1 : ℚ))]] 1)
            (fs_lengths [2] (msD [[((3 : ℚ), (1 : ℚ)), ((4 : ℚ), (1 : ℚ))]] 0)) [2]),
       ("flatness.ave_flatness_l1",
          flatness_ratio_spec (msW [[((3 : ℚ), (1 : ℚ)), ((4 : ℚ), (1 : ℚ))]] 0)
            (fs_lengths [2] (msD [[((3 : ℚ), (1 : ℚ)), ((4 : ℚ), (1 : ℚ))]] 0)) [2]),
       ("flatness.ave_flatness_l2",
          flatness_ratio_spec (msW [[((3 : ℚ), (1 : ℚ)), ((4 : ℚ), (1 : ℚ))]] 1)
            (fs_lengths [2] (msD [[((3 : ℚ), (1 : ℚ)), ((4 : ℚ), (1 : ℚ))]] 1)) [2]),
       ("flatness.ave_width_l1",
          meanQ ((activeIdx [2]).map fun i =>
            (msW [[((3 : ℚ), (1 : ℚ)), ((4 : ℚ), (1 : ℚ))]] 0).getD i 0)),
       ("flatness.ave_width_l2",
          meanQ ((activeIdx [2]).map fun i =>
            (msW [[((3 : ℚ), (1 : ℚ)), ((4 : ℚ), (1 : ℚ))]] 1).getD i 0)),
       ("flatness.ave_length_l1",
          meanQ ((activeIdx [2]).map fun i =>
            (fs_lengths [2] (msD [[((3 : ℚ), (1 : ℚ)), ((4 : ℚ), (1 : ℚ))]] 0)).getD i 0)),
       ("flatness.ave_length_l2",
          meanQ ((activeIdx [2]).map fun i =>
            (fs_lengths [2] (msD [[((3 : ℚ), (1 : ℚ)), ((4 : ℚ), (1 : ℚ))]] 1)).getD i 0))] :=
  C1_flatness_scores_are_ratio_means [2] [[((3 : ℚ), (1 : ℚ)), ((4 : ℚ), (1 : ℚ))]]
    (by decide) (by decide)
    (by
      intro i hi
      have hAi : activeIdx [2] = [0] := rfl
      rw [hAi] at hi
      fin_cases hi
      refine ⟨⟨by norm_num [msW], by norm_num [msW]⟩,
        ⟨by norm_num [fs_lengths, msD], by norm_num [fs_lengths, msD]⟩⟩)
    (by
      intro i hi
      have hAi : activeIdx [2] = [0] := rfl
      rw [hAi] at hi
      fin_cases hi
      refine ⟨by norm_num [msW, fs_lengths, msD],
        by norm_num [msW, fs_lengths, msD],
        by norm_num [msW, fs_lengths, msD]⟩)

/-! ## C10 -/

lemma error_bind {α β : Type} (e : String) (f : α → Except String β) :
    ((Except.error e : Except String α) >>= f) = .error e := rfl

lemma getD_set_ne (l : List (List ℚ)) (i j : ℕ) (v : List ℚ) (h : i ≠ j) :
    (l.set i v).getD j [] = l.getD j [] := by
  rw [List.getD_eq_getElem?_getD, List.getElem?_set_ne h,
    ← List.getD_eq_getElem?_getD]

lemma getD_set_self (l : List (List ℚ)) (i : ℕ) (v : List ℚ)
    (h : i < l.length) :
    (l.set i v).getD i [] = v := by
  rw [List.getD_eq_getElem?_getD, List.getElem?_set_self h]
  rfl

lemma readT_writeT_ne (s : TStore) (i j : ℕ) (v : List ℚ) (h : i ≠ j) :
    readT (writeT s i v) j = readT s j := by
  unfold readT writeT
  exact getD_set_ne _ _ _ _ h

lemma readT_writeT_self (s : TStore) (i : ℕ) (v : List ℚ)
    (h : i < s.cells.length) :
    readT (writeT s i v) i = v := by
  unfold readT writeT
  exact getD_set_self _ _ _ h

lemma writeT_length (s : TStore) (i : ℕ) (v : List ℚ) :
    (writeT s i v).cells.length = s.cells.length := by
  unfold writeT
  exact List.length_set _ _ _

/-- One stateful `compute_flatness` call: when the pure version succeeds on
the referenced tensors, the stateful version succeeds with the same value,
only grows the store, and leaves every pre-existing cell unchanged. -/
lemma compute_flatness_st_spec (s : TStore) (wr lr : ℕ)
    (factor_sizes : List ℕ) (v : Option ℚ)
    (hwr : wr < s.cells.length) (hlr : lr < s.cells.length)
    (hok : compute_flatness (readT s wr) (readT s lr) factor_sizes = .ok v) :
    ∃ s', compute_flatness_st s wr lr factor_sizes = .ok (s', v)
      ∧ s.cells.length ≤ s'.cells.length
      ∧ ∀ r, r < s.cells.length → readT s' r = readT s r := by
  unfold compute_flatness at hok
  cases hFw : filter_inactive_factors (readT s wr) factor_sizes with
  | error e => rw [hFw, error_bind] at hok; exact absurd hok (by simp)
  | ok fw =>
  rw [hFw, ok_bind] at hok
  cases hFl : filter_inactive_factors (readT s lr) factor_sizes with
  | error e => rw [hFl, error_bind] at hok; exact absurd hok (by simp)
  | ok fl =>
  rw [hFl, ok_bind] at hok
  by_cases c1 : ¬ (fw.all fun w => decide (0 ≤ w)) = true
  · rw [if_pos c1] at hok; exact absurd hok (by simp)
  rw [if_neg c1] at hok
  by_cases c2 : ¬ (fl.all fun l => decide (0 ≤ l)) = true
  · rw [if_pos c2] at hok; exact absurd hok (by simp)
  rw [if_neg c2] at hok
  by_cases c3 : fw.length ≠ fl.length
  · rw [if_pos c3] at hok; exact absurd hok (by simp)
  rw [if_neg c3] at hok
  by_cases c4 : ¬ (List.zipWith (fun w _ => (w == (0 : ℚ))) fw fl
      = List.zipWith (fun _ l => (l == (0 : ℚ))) fw fl)
  · rw [if_pos c4] at hok; exact absurd hok (by simp)
  rw [if_neg c4] at hok
  have hv' : meanQ (List.zipWith (· / ·)
        (List.zipWith (fun w l => if l = (0 : ℚ) then 0 else w) fw fl)
        (fl.map fun l => if l = (0 : ℚ) then 1 else l)) = v :=
    Except.ok.inj hok
  have hlen1 : (s.cells ++ [fw]).length = s.cells.length + 1 := by simp
  have hlen2 : ((s.cells ++ [fw]) ++ [fl]).length = s.cells.length + 2 := by simp
  have hstep1 : filter_inactive_factors_st s wr factor_sizes
      = .ok (⟨s.cells ++ [fw]⟩, s.cells.length) := by
    unfold filter_inactive_factors_st
    rw [hFw, map_ok]
    rfl
  have hr1 : readT ⟨s.cells ++ [fw]⟩ lr = readT s lr := by
    unfold readT
    exact List.getD_append _ _ _ _ hlr
  have hstep2 : filter_inactive_factors_st ⟨s.cells ++ [fw]⟩ lr factor_sizes
      = .ok (⟨(s.cells ++ [fw]) ++ [fl]⟩, s.cells.length + 1) := by
    unfold filter_inactive_factors_st
    rw [hr1, hFl, map_ok]
    unfold allocT
    rw [show (⟨s.cells ++ [fw]⟩ : TStore).cells.length = s.cells.length + 1 from hlen1]
  have hmklen : (⟨(s.cells ++ [fw]) ++ [fl]⟩ : TStore).cells.length
      = s.cells.length + 2 := hlen2
  have hR1 : readT ⟨(s.cells ++ [fw]) ++ [fl]⟩ s.cells.length = fw := by
    unfold readT
    rw [List.getD_append _ _ _ _ (by rw [hlen1]; omega),
        List.getD_append_right _ _ _ _ (le_refl _), Nat.sub_self]
    rfl
  have hR2 : readT ⟨(s.cells ++ [fw]) ++ [fl]⟩ (s.cells.length + 1) = fl := by
    unfold readT
    rw [List.getD_append_right _ _ _ _ (by rw [hlen1]), hlen1, Nat.sub_self]
    rfl
  unfold compute_flatness_st
  simp only [hstep1, hstep2, ok_bind]
  rw [hR1, hR2, if_neg c1, if_neg c2, if_neg c3, if_neg c4]
  have hR3 : readT (writeT ⟨(s.cells ++ [fw]) ++ [fl]⟩ s.cells.length
        (List.zipWith (fun w l => if l = (0 : ℚ) then 0 else w) fw fl))
        (s.cells.length + 1) = fl := by
    rw [readT_writeT_ne _ _ _ _ (by omega)]
    exact hR2
  rw [hR3]
  have hR4 : readT (writeT (writeT ⟨(s.cells ++ [fw]) ++ [fl]⟩ s.cells.length
        (List.zipWith (fun w l => if l = (0 : ℚ) then 0 else w) fw fl))
        (s.cells.length + 1)
        (fl.map fun l => if l = (0 : ℚ) then 1 else l)) s.cells.length
      = List.zipWith (fun w l => if l = (0 : ℚ) then 0 else w) fw fl := by
    rw [readT_writeT_ne _ _ _ _ (by omega),
        readT_writeT_self _ _ _ (by rw [hmklen]; omega)]
  have hR5 : readT (writeT (writeT ⟨(s.cells ++ [fw]) ++ [fl]⟩ s.cells.length
        (List.zipWith (fun w l => if l = (0 : ℚ) then 0 else w) fw fl))
        (s.cells.length + 1)
        (fl.map fun l => if l = (0 : ℚ) then 1 else l)) (s.cells.length + 1)
      = fl.map fun l => if l = (0 : ℚ) then 1 else l := by
    rw [readT_writeT_self _ _ _ (by rw [writeT_length, hmklen]; omega)]
  rw [hR4, hR5, hv']
  refine ⟨_, rfl, ?_, ?_⟩
  · rw [writeT_length, writeT_length, hmklen]
    omega
  · intro r hr
    rw [readT_writeT_ne _ _ _ _ (by omega), readT_writeT_ne _ _ _ _ (by omega)]
    unfold readT
    show ((s.cells ++ [fw]) ++ [fl]).getD r [] = s.cells.getD r []
    rw [List.getD_append _ _ _ _ (by rw [hlen1]; omega),
        List.getD_append _ _ _ _ (by omega)]

/-- C10: across the three sequential `compute_flatness` calls of
`metric_flatness`, the caller's four measure tensors are unchanged (the
in-place writes only touch the fresh copies produced by
`filter_inactive_factors`), and each call computes its value from the
original tensor contents. -/
theorem C10_flatness_calls_preserve_measures (s : TStore)
    (w1r l1r w2r l2r : ℕ) (factor_sizes : List ℕ) (v1 v2 v3 : Option ℚ)
    (h1 : w1r < s.cells.length) (h2 : l1r < s.cells.length)
    (h3 : w2r < s.cells.length) (h4 : l2r < s.cells.length)
    (hok1 : compute_flatness (readT s w2r) (readT s l1r) factor_sizes = .ok v1)
    (hok2 : compute_flatness (readT s w1r) (readT s l1r) factor_sizes = .ok v2)
    (hok3 : compute_flatness (readT s w2r) (readT s l2r) factor_sizes = .ok v3) :
    ∃ s3, three_flatness_calls s w1r l1r w2r l2r factor_sizes
        = .ok (s3, (v1, v2, v3))
      ∧ readT s3 w1r = readT s w1r ∧ readT s3 l1r = readT s l1r
      ∧ readT s3 w2r = readT s w2r ∧ readT s3 l2r = readT s l2r := by
  obtain ⟨sa, hea, hla, hfa⟩ :=
    compute_flatness_st_spec s w2r l1r factor_sizes v1 h3 h2 hok1
  have ha1 : readT sa w1r = readT s w1r := hfa _ h1
  have ha2 : readT sa l1r = readT s l1r := hfa _ h2
  have ha3 : readT sa w2r = readT s w2r := hfa _ h3
  have ha4 : readT sa l2r = readT s l2r := hfa _ h4
  obtain ⟨sb, heb, hlb, hfb⟩ :=
    compute_flatness_st_spec sa w1r l1r factor_sizes v2 (by omega) (by omega)
      (by rw [ha1, ha2]; exact hok2)
  have hb1 : readT sb w1r = readT s w1r := by rw [hfb _ (by omega), ha1]
  have hb2 : readT sb l1r = readT s l1r := by rw [hfb _ (by omega), ha2]
  have hb3 : readT sb w2r = readT s w2r := by rw [hfb _ (by omega), ha3]
  have hb4 : readT sb l2r = readT s l2r := by rw [hfb _ (by omega), ha4]
  obtain ⟨sc, hec, hlc, hfc⟩ :=
    compute_flatness_st_spec sb w2r l2r factor_sizes v3 (by omega) (by omega)
      (by rw [hb3, hb4]; exact hok3)
  refine ⟨sc, ?_, ?_, ?_, ?_, ?_⟩
  · unfold three_flatness_calls
    simp only [hea, heb, hec, ok_bind]
    rfl
  · rw [hfc _ (by omega), hb1]
  · rw [hfc _ (by omega), hb2]
  · rw [hfc _ (by omega), hb3]
  · rw [hfc _ (by omega), hb4]

/-- C10 witness. -/
theorem C10_flatness_calls_preserve_measures_witness :
    ∃ s3, three_flatness_calls ⟨[[1], [2], [3], [4]]⟩ 0 1 2 3 [2]
        = .ok (s3, (some (3 / 2), some (1 / 2), some (3 / 4)))
      ∧ readT s3 0 = readT ⟨[[1], [2], [3], [4]]⟩ 0
      ∧ readT s3 1 = readT ⟨[[1], [2], [3], [4]]⟩ 1
      ∧ readT s3 2 = readT ⟨[[1], [2], [3], [4]]⟩ 2
      ∧ readT s3 3 = readT ⟨[[1], [2], [3], [4]]⟩ 3 :=
  C10_flatness_calls_preserve_measures ⟨[[1], [2], [3], [4]]⟩ 0 1 2 3 [2]
    (some (3 / 2)) (some (1 / 2)) (some (3 / 4))
    (by decide) (by decide) (by decide) (by decide)
    (by with_unfolding_all rfl) (by with_unfolding_all rfl)
    (by with_unfolding_all rfl)

/-! ## C8 -/

lemma bind_congr_E {α β : Type} (x : Except String α)
    (f g : α → Except String β) (h : ∀ a, f a = g a) :
    (x >>= f) = (x >>= g) := by
  cases x with
  | error e => rfl
  | ok a => exact h a

lemma mapM_congr_E {α β : Type} (l : List α) (f g : α → Except String β)
    (h : ∀ a ∈ l, f a = g a) : l.mapM f = l.mapM g := by
  induction l with
  | nil => rfl
  | cons a as ih =>
    rw [List.mapM_cons, List.mapM_cons, h a (List.mem_cons_self a as),
        ih (fun b hb => h b (List.mem_cons_of_mem a hb))]

lemma chunksGo_flatten {α : Type _} (c : ℕ) (xs : List α) :
    ∀ (acc : List α) (k : ℕ), (chunksGo c xs acc k).flatten = acc.reverse ++ xs := by
  induction xs with
  | nil =>
    intro acc k
    unfold chunksGo
    by_cases h : acc.isEmpty
    · rw [if_pos h]
      rw [List.isEmpty_iff] at h
      simp [h]

    · rw [if_neg h]
      simp
  | cons x xs ih =>
    intro acc k
    cases k with
    | zero =>
      unfold chunksGo
      rw [List.flatten_cons, ih [x] (c - 1)]
      simp
    | succ k =>
      unfold chunksGo
      rw [ih (x :: acc) k]
      simp

/-- When the batch encoder acts row-wise, chunked encoding with any
positive batch size equals encoding all rows at once. -/
lemma encode_all_factors_rowwise (F : List (List ℕ) → List Vec)
    (g : List ℕ → Vec) (hF : ∀ xs, F xs = xs.map g)
    (rows : List (List ℕ)) (b : ℤ) (hb : 0 < b) :
    encode_all_factors F rows b = .ok (rows.map g) := by
  unfold encode_all_factors chunked
  rw [if_neg (by omega), map_ok]
  congr 1
  have hmap : (chunksGo b.toNat rows [] b.toNat).map F
      = (chunksGo b.toNat rows [] b.toNat).map (fun ch => ch.map g) :=
    List.map_congr_left (fun ch _ => hF ch)
  rw [hmap, ← List.map_flatten, chunksGo_flatten]
  simp

lemma encode_along_rowwise (factor_sizes : List ℕ)
    (F : List (List ℕ) → List Vec) (g : List ℕ → Vec)
    (hF : ∀ xs, F xs = xs.map g) (base : List ℕ) (f_idx : ℤ) (b : ℤ)
    (hb : 0 < b) :
    encode_all_along_factor factor_sizes F base f_idx b
      = (pyGet factor_sizes f_idx).map
          (fun n => (range_along_repeated_factors base f_idx n).map g) := by
  unfold encode_all_along_factor
  cases hp : pyGet factor_sizes f_idx with
  | error e => rw [error_bind]; rfl
  | ok n =>
    rw [ok_bind, encode_all_factors_rowwise F g hF _ b hb]
    rfl

lemma aggregate_rowwise_batch_invariant (factor_sizes : List ℕ)
    (F₁ F₂ : List (List ℕ) → List Vec) (g : List ℕ → Vec)
    (samples : ℕ → List ℕ) (f_idx : ℤ) (repeats : ℕ) (b₁ b₂ : ℤ)
    (ps : List (Vec → ℚ)) (cf : Bool)
    (h₁ : ∀ xs, F₁ xs = xs.map g) (h₂ : ∀ xs, F₂ xs = xs.map g)
    (hb₁ : 0 < b₁) (hb₂ : 0 < b₂) :
    aggregate_measure_distances_along_factor factor_sizes F₁ samples f_idx
        repeats b₁ ps cf
      = aggregate_measure_distances_along_factor factor_sizes F₂ samples f_idx
        repeats b₂ ps cf := by
  unfold aggregate_measure_distances_along_factor
  apply bind_congr_E
  intro f_size
  by_cases hone : f_size = 1
  · rw [if_pos hone, if_pos hone]
  · rw [if_neg hone, if_neg hone]
    have henc : ∀ r, encode_all_along_factor factor_sizes F₁ (samples r) f_idx b₁
        = encode_all_along_factor factor_sizes F₂ (samples r) f_idx b₂ := by
      intro r
      rw [encode_along_rowwise factor_sizes F₁ g h₁ _ _ _ hb₁,
          encode_along_rowwise factor_sizes F₂ g h₂ _ _ _ hb₂]
    have hstats : (List.range repeats).mapM (fun r => do
          let zs ← encode_all_along_factor factor_sizes F₁ (samples r) f_idx b₁
          ps.mapM (fun nrm => measure_one nrm f_size zs))
        = (List.range repeats).mapM (fun r => do
          let zs ← encode_all_along_factor factor_sizes F₂ (samples r) f_idx b₂
          ps.mapM (fun nrm => measure_one nrm f_size zs)) := by
      apply mapM_congr_E
      intro r _
      rw [henc r]
    rw [hstats]

/-- C8: for a fixed sample stream and a deterministic row-wise
representation function, the metric's value is identical for every
positive `batch_size`: chunked encoding concatenates back to the full
traversal, so no final score depends on the batch size. -/
theorem C8_batch_size_invariance (factor_sizes : List ℕ)
    (F : List (List ℕ) → List Vec) (g : List ℕ → Vec)
    (samples : ℕ → ℕ → List ℕ) (repeats : ℕ) (b₁ b₂ : ℤ)
    (nrm1 nrm2 : Vec → ℚ)
    (hF : ∀ xs, F xs = xs.map g) (hb₁ : 0 < b₁) (hb₂ : 0 < b₂) :
    metric_flatness factor_sizes F samples repeats b₁ nrm1 nrm2
      = metric_flatness factor_sizes F samples repeats b₂ nrm1 nrm2 := by
  unfold metric_flatness
  have hms : (List.range factor_sizes.length).mapM (fun f =>
        aggregate_measure_distances_along_factor factor_sizes F (samples f)
          (f : ℤ) repeats b₁ [nrm1, nrm2] false)
      = (List.range factor_sizes.length).mapM (fun f =>
        aggregate_measure_distances_along_factor factor_sizes F (samples f)
          (f : ℤ) repeats b₂ [nrm1, nrm2] false) := by
    apply mapM_congr_E
    intro f _
    exact aggregate_rowwise_batch_invariant factor_sizes F F g (samples f)
      (f : ℤ) repeats b₁ b₂ [nrm1, nrm2] false hF hF hb₁ hb₂
  rw [hms]

set_option maxHeartbeats 1000000 in
/-- C8 witness. -/
theorem C8_batch_size_invariance_witness :
    metric_flatness [2] (fun xs => xs.map (fun r => [((r.getD 0 0 : ℕ) : ℚ)]))
        (fun _ _ => [0]) 1 1 l1norm l1norm
      = metric_flatness [2] (fun xs => xs.map (fun r => [((r.getD 0 0 : ℕ) : ℚ)]))
        (fun _ _ => [0]) 1 64 l1norm l1norm := by
  apply C8_batch_size_invariance [2] _ (fun r => [((r.getD 0 0 : ℕ) : ℚ)])
  · exact fun _ => rfl
  · decide
  · decide

/-! ## C5 -/

lemma mapM_ok_const {α β : Type} (l : List α) (f : α → Except String β) (c : β)
    (h : ∀ a ∈ l, f a = .ok c) :
    l.mapM f = .ok (List.replicate l.length c) := by
  induction l with
  | nil => rfl
  | cons a as ih =>
    rw [List.mapM_cons, h a (List.mem_cons_self a as),
        ih (fun x hx => h x (List.mem_cons_of_mem a hx)), ok_bind, ok_bind]
    rfl

lemma avg_replicate (R : ℕ) (hR : 1 ≤ R) (x : ℚ) :
    avg (List.replicate R x) = x := by
  unfold avg
  rw [List.sum_replicate, List.length_replicate, nsmul_eq_mul]
  have hne : (R : ℚ) ≠ 0 := Nat.cast_ne_zero.mpr (by omega)
  exact mul_div_cancel_left₀ x hne

lemma flatten_replicate_sum (R : ℕ) (l : List ℚ) :
    (List.replicate R l).flatten.sum = R • l.sum := by
  induction R with
  | zero => simp
  | succ n ih =>
    simp [List.replicate_succ, ih, succ_nsmul]
    ring

lemma flatten_replicate_length {α : Type _} (R : ℕ) (l : List α) :
    (List.replicate R l).flatten.length = R * l.length := by
  induction R with
  | zero => simp
  | succ n ih => simp [List.replicate_succ, ih, Nat.succ_mul, add_comm]

lemma avg_flatten_replicate (R : ℕ) (hR : 1 ≤ R) (l : List ℚ) :
    avg ((List.replicate R l).flatten) = avg l := by
  unfold avg
  rw [flatten_replicate_sum, flatten_replicate_length, nsmul_eq_mul,
    Nat.cast_mul]
  have hne : (R : ℚ) ≠ 0 := Nat.cast_ne_zero.mpr (by omega)
  exact mul_div_mul_left _ _ hne

lemma getD_mem {l : List Vec} {i : ℕ} (hi : i < l.length) :
    l.getD i [] ∈ l := by
  rw [List.getD_eq_getElem?_getD, List.getElem?_eq_getElem hi]
  exact List.getElem_mem hi

/-- The per-repeat measures depend on the norm only through its values on
differences of traversal points. -/
lemma measure_one_congr (nrm nrm' : Vec → ℚ) (f_size : ℕ) (zs : List Vec)
    (h : ∀ a ∈ zs, ∀ b ∈ zs, nrm (vsub a b) = nrm' (vsub a b)) :
    measure_one nrm f_size zs = measure_one nrm' f_size zs := by
  unfold measure_one
  have hW : traversal_width nrm zs = traversal_width nrm' zs := by
    unfold traversal_width knn
    have hdm : (zs.map fun a => zs.map fun b => nrm (vsub a b))
        = (zs.map fun a => zs.map fun b => nrm' (vsub a b)) :=
      List.map_congr_left (fun a ha =>
        List.map_congr_left (fun b hb => h a ha b hb))
    rw [hdm]
  have hD : rawCyclicDeltas nrm zs = rawCyclicDeltas nrm' zs := by
    unfold rawCyclicDeltas
    apply List.map_congr_left
    intro i hi
    have hil : i < zs.length := List.mem_range.mp hi
    have hpos : 0 < zs.length := by omega
    exact h _ (getD_mem hil) _ (getD_mem (Nat.mod_lt _ hpos))
  rw [hW, hD]

lemma map_g5_range (base : List ℕ) (hb : base.length = 2) :
    (range_along_repeated_factors base 1 5).map g5
      = (List.range 5).map (fun i => [((i : ℕ) : ℚ) * 2]) := by
  unfold range_along_repeated_factors
  rw [List.map_map]
  apply List.map_congr_left
  intro i _
  show g5 (npSetCol base 1 i) = [((i : ℕ) : ℚ) * 2]
  unfold g5 npSetCol
  have h1 : (if (1 : ℤ) < 0 then (base.length : ℤ) + 1 else 1) = 1 := by omega
  rw [h1]
  have hget : (base.set (1 : ℤ).toNat i).getD 1 0 = i := by
    show (base.set 1 i).getD 1 0 = i
    rw [List.getD_eq_getElem?_getD, List.getElem?_set_self (by omega)]
    rfl
  rw [hget]

lemma measure_one_l1_zs5 :
    measure_one l1norm 5 ((List.range 5).map (fun i => [((i : ℕ) : ℚ) * 2]))
      = .ok (8, [2, 2, 2, 2]) := by
  with_unfolding_all rfl

lemma measure_one_nrm2_zs5 (nrm2 : Vec → ℚ) (h2 : ∀ x : ℚ, nrm2 [x] = |x|) :
    measure_one nrm2 5 ((List.range 5).map (fun i => [((i : ℕ) : ℚ) * 2]))
      = .ok (8, [2, 2, 2, 2]) := by
  rw [measure_one_congr nrm2 l1norm _ _ ?_]
  · exact measure_one_l1_zs5
  · intro a ha b hb
    obtain ⟨i, _, hai⟩ := List.mem_map.mp ha
    obtain ⟨j, _, hbj⟩ := List.mem_map.mp hb
    rw [← hai, ← hbj]
    show nrm2 [((i : ℕ) : ℚ) * 2 - ((j : ℕ) : ℚ) * 2]
      = l1norm [((i : ℕ) : ℚ) * 2 - ((j : ℕ) : ℚ) * 2]
    rw [h2]
    simp [l1norm]

lemma C5_aggregate_factor1 (samples : ℕ → List ℕ) (R : ℕ) (b : ℤ)
    (nrm2 : Vec → ℚ) (hs : ∀ r, (samples r).length = 2) (hR : 1 ≤ R)
    (hb : 0 < b) (h2 : ∀ x : ℚ, nrm2 [x] = |x|) :
    aggregate_measure_distances_along_factor [1, 5] (fun xs => xs.map g5)
        samples 1 R b [l1norm, nrm2] false
      = .ok [((8 : ℚ), (2 : ℚ)), ((8 : ℚ), (2 : ℚ))] := by
  unfold aggregate_measure_distances_along_factor
  rw [show pyGet [1, 5] 1 = .ok 5 from rfl, ok_bind, if_neg (by omega)]
  have hbody : ∀ r ∈ List.range R, (do
      let zs ← encode_all_along_factor [1, 5] (fun xs => xs.map g5)
        (samples r) 1 b
      [l1norm, nrm2].mapM (fun nrm => measure_one nrm 5 zs))
      = .ok [((8 : ℚ), ([2, 2, 2, 2] : List ℚ)), ((8 : ℚ), ([2, 2, 2, 2] : List ℚ))] := by
    intro r _
    rw [encode_along_rowwise [1, 5] _ g5 (fun _ => rfl) (samples r) 1 b hb,
        show pyGet [1, 5] 1 = .ok 5 from rfl]
    rw [show (Except.ok 5 : Except String ℕ).map
          (fun n => (range_along_repeated_factors (samples r) 1 n).map g5)
        = .ok ((range_along_repeated_factors (samples r) 1 5).map g5) from rfl]
    rw [map_g5_range (samples r) (hs r), ok_bind]
    rw [List.mapM_cons, measure_one_l1_zs5, ok_bind, List.mapM_cons,
        measure_one_nrm2_zs5 nrm2 h2, ok_bind, List.mapM_nil]
    rfl
  rw [mapM_ok_const _ _ _ hbody, ok_bind, if_neg (by omega),
      List.length_range]
  congr 1
  rw [show ([l1norm, nrm2] : List (Vec → ℚ)).length = 2 from rfl]
  rw [show List.range 2 = [0, 1] from rfl, List.map_cons, List.map_cons,
      List.map_nil, List.map_replicate, List.map_replicate,
      List.map_replicate, List.map_replicate,
      avg_replicate R hR, avg_replicate R hR,
      avg_flatten_replicate R hR, avg_flatten_replicate R hR]
  show [((8 : ℚ), avg ([2, 2, 2, 2] : List ℚ)),
        ((8 : ℚ), avg ([2, 2, 2, 2] : List ℚ))] = _
  rw [show avg ([2, 2, 2, 2] : List ℚ) = 2 by with_unfolding_all rfl]

/-- C5: with 2 factors of sizes `[1, 5]` and a representation mapping the
size-5 factor's value `v` to the 1-D latent `v * 2.0`, the metric returns
`ave_flatness_l1 = 1.0` (each repeat yields width 8, four retained deltas
of 2, length `(5-1)*2 = 8`), with the size-1 factor 0 excluded from all
aggregates (so `ave_width_l1 = ave_length_l1 = 8`, not diluted by factor
0). -/
theorem C5_concrete_scenario (samples : ℕ → ℕ → List ℕ) (R : ℕ) (b : ℤ)
    (nrm2 : Vec → ℚ) (hs : ∀ f r, (samples f r).length = 2) (hR : 1 ≤ R)
    (hb : 0 < b) (h2 : ∀ x : ℚ, nrm2 [x] = |x|) :
    ∃ res, metric_flatness [1, 5] (fun xs => xs.map g5) samples R b l1norm nrm2
        = .ok res
      ∧ res.lookup "flatness.ave_flatness_l1" = some (some 1)
      ∧ res.lookup "flatness.ave_width_l1" = some (some 8)
      ∧ res.lookup "flatness.ave_length_l1" = some (some 8) := by
  unfold metric_flatness
  have hms : (List.range ([1, 5] : List ℕ).length).mapM (fun f =>
      aggregate_measure_distances_along_factor [1, 5] (fun xs => xs.map g5)
        (samples f) (f : ℤ) R b [l1norm, nrm2] false)
      = .ok [[((0 : ℚ), (0 : ℚ)), ((0 : ℚ), (0 : ℚ))],
             [((8 : ℚ), (2 : ℚ)), ((8 : ℚ), (2 : ℚ))]] := by
    rw [show List.range ([1, 5] : List ℕ).length = [0, 1] from rfl,
        List.mapM_cons,
        show ((0 : ℕ) : ℤ) = (0 : ℤ) from rfl,
        aggregate_size_one [1, 5] _ (samples 0) 0 R b [l1norm, nrm2] rfl,
        ok_bind, List.mapM_cons,
        show ((1 : ℕ) : ℤ) = (1 : ℤ) from rfl,
        C5_aggregate_factor1 (samples 1) R b nrm2 (hs 1) hR hb h2,
        ok_bind, List.mapM_nil]
    rfl
  rw [hms, ok_bind]
  have hres : metric_results [1, 5]
      [[((0 : ℚ), (0 : ℚ)), ((0 : ℚ), (0 : ℚ))],
       [((8 : ℚ), (2 : ℚ)), ((8 : ℚ), (2 : ℚ))]]
      = .ok [("flatness.ave_flatness", some 1),
             ("flatness.ave_flatness_l1", some 1),
             ("flatness.ave_flatness_l2", some 1),
             ("flatness.ave_width_l1", some 8),
             ("flatness.ave_width_l2", some 8),
             ("flatness.ave_length_l1", some 8),
             ("flatness.ave_length_l2", some 8)] := by
    with_unfolding_all rfl
  rw [hres]
  exact ⟨_, rfl, rfl, rfl, rfl⟩

/-- C5 witness. -/
theorem C5_concrete_scenario_witness :
    ∃ res, metric_flatness [1, 5] (fun xs => xs.map g5) (fun _ _ => [0, 0])
        2 64 l1norm l1norm = .ok res
      ∧ res.lookup "flatness.ave_flatness_l1" = some (some 1)
      ∧ res.lookup "flatness.ave_width_l1" = some (some 8)
      ∧ res.lookup "flatness.ave_length_l1" = some (some 8) :=
  C5_concrete_scenario (fun _ _ => [0, 0]) 2 64 l1norm
    (fun _ _ => rfl) (by decide) (by decide)
    (fun x => by simp [l1norm])

/-! ## C7 -/

lemma sum_nonneg_eq_zero_iff (l : List ℚ) (hnn : ∀ x ∈ l, 0 ≤ x) :
    l.sum = 0 ↔ ∀ x ∈ l, x = 0 := by
  induction l with
  | nil => simp
  | cons a as ih =>
    rw [List.sum_cons]
    have ha : 0 ≤ a := hnn a (List.mem_cons_self a as)
    have has : 0 ≤ as.sum :=
      List.sum_nonneg (fun x hx => hnn x (List.mem_cons_of_mem a hx))
    constructor
    · intro h
      have ha0 : a = 0 := by linarith [has, ha]
      have hs0 : as.sum = 0 := by linarith
      intro x hx
      rcases List.mem_cons.mp hx with rfl | hx'
      · exact ha0
      · exact (ih (fun y hy => hnn y (List.mem_cons_of_mem a hy))).mp hs0 x hx'
    · intro h
      rw [h a (List.mem_cons_self a as),
        (ih (fun y hy => hnn y (List.mem_cons_of_mem a hy))).mpr
          (fun x hx => h x (List.mem_cons_of_mem a hx))]
      norm_num

lemma avg_nonneg (l : List ℚ) (hnn : ∀ x ∈ l, 0 ≤ x) : 0 ≤ avg l := by
  unfold avg
  apply div_nonneg (List.sum_nonneg hnn)
  positivity

lemma avg_zero_iff (l : List ℚ) (hne : l ≠ []) (hnn : ∀ x ∈ l, 0 ≤ x) :
    avg l = 0 ↔ ∀ x ∈ l, x = 0 := by
  unfold avg
  have hlen : (0 : ℚ) < l.length := by
    have := List.length_pos.mpr hne
    exact_mod_cast this
  rw [div_eq_zero_iff]
  constructor
  · rintro (h | h)
    · exact (sum_nonneg_eq_zero_iff l hnn).mp h
    · exact absurd h (by positivity)
  · intro h
    exact Or.inl ((sum_nonneg_eq_zero_iff l hnn).mpr h)

lemma pyGet_natcast (xs : List ℕ) (f : ℕ) (hf : f < xs.length) :
    pyGet xs (f : ℤ) = .ok (xs.getD f 0) := by
  unfold pyGet
  have h1 : ¬ ((f : ℤ) < 0) := by omega
  simp only [h1, if_false]
  rw [show ((f : ℤ)).toNat = f from rfl, List.getElem?_eq_getElem hf]
  rw [List.getD_eq_getElem?_getD, List.getElem?_eq_getElem hf]
  rfl

lemma mod_walk_step (n j t : ℕ) (hj : j < n) (ht : t + 1 < n) :
    (j + 1 + t) % n ≠ j := by
  intro hcon
  have hmod : (j + (1 + t)) % n = (j + 0) % n := by
    rw [← Nat.add_assoc, hcon, Nat.add_zero, Nat.mod_eq_of_lt hj]
  have hdvd : (1 + t) % n = 0 % n := Nat.ModEq.add_left_cancel' j hmod
  have : n ∣ 1 + t := by
    rw [Nat.zero_mod] at hdvd
    exact Nat.dvd_of_mod_eq_zero hdvd
  have := Nat.le_of_dvd (by omega) this
  omega

lemma mod_succ_shift (n a : ℕ) (h2 : 2 ≤ n) :
    (a + 1) % n = (a % n + 1) % n := by
  conv_lhs => rw [Nat.add_mod]
  rw [Nat.mod_eq_of_lt (show 1 < n by omega)]

lemma mod_shift_hits (n j a : ℕ) (h2 : 2 ≤ n) (ha : a < n) :
    ∃ t, t < n ∧ (j + 1 + t) % n = a := by
  have hm : (j + 1) % n < n := Nat.mod_lt _ (by omega)
  by_cases hle : (j + 1) % n ≤ a
  · refine ⟨a - (j + 1) % n, by omega, ?_⟩
    rw [Nat.add_mod (j + 1),
        Nat.mod_eq_of_lt (show a - (j + 1) % n < n by omega),
        show (j + 1) % n + (a - (j + 1) % n) = a by omega,
        Nat.mod_eq_of_lt ha]
  · refine ⟨n + a - (j + 1) % n, by omega, ?_⟩
    rw [Nat.add_mod (j + 1),
        Nat.mod_eq_of_lt (show n + a - (j + 1) % n < n by omega),
        show (j + 1) % n + (n + a - (j + 1) % n) = n + a by omega,
        Nat.add_mod_left, Nat.mod_eq_of_lt ha]

/-- Walking around the cycle from the vertex after the possibly-nonzero
edge `j`, every vertex equals the starting one. -/
lemma cycle_walk (zs : List Vec) (n : ℕ) (hn : zs.length = n) (h2 : 2 ≤ n)
    (j : ℕ) (hj : j < n)
    (hz : ∀ i, i < n → i ≠ j → zs.getD i [] = zs.getD ((i + 1) % n) []) :
    ∀ t, t < n → zs.getD ((j + 1 + t) % n) [] = zs.getD ((j + 1) % n) [] := by
  intro t
  induction t with
  | zero => intro _; rfl
  | succ t ih =>
    intro ht
    have hit : (j + 1 + t) % n ≠ j := mod_walk_step n j t hj (by omega)
    have hstep := hz ((j + 1 + t) % n) (Nat.mod_lt _ (by omega)) hit
    have hconv : (j + 1 + (t + 1)) % n = ((j + 1 + t) % n + 1) % n := by
      rw [← Nat.add_assoc, mod_succ_shift n (j + 1 + t) h2]
    rw [hconv, ← hstep]
    exact ih (by omega)

/-- If all cyclic edges except possibly one are zero-length, all points of
the traversal coincide. -/
lemma cycle_all_eq (zs : List Vec) (n : ℕ) (hn : zs.length = n) (h2 : 2 ≤ n)
    (j : ℕ) (hj : j < n)
    (hz : ∀ i, i < n → i ≠ j → zs.getD i [] = zs.getD ((i + 1) % n) []) :
    ∀ x ∈ zs, ∀ y ∈ zs, x = y := by
  have hmain : ∀ a, a < n → zs.getD a [] = zs.getD ((j + 1) % n) [] := by
    intro a ha
    obtain ⟨t, ht, hta⟩ := mod_shift_hits n j a h2 ha
    rw [← hta]
    exact cycle_walk zs n hn h2 j hj hz t ht
  intro x hx y hy
  obtain ⟨a, ha, hxa⟩ := List.mem_iff_getElem.mp hx
  obtain ⟨b, hb, hyb⟩ := List.mem_iff_getElem.mp hy
  have hxa' : zs.getD a [] = x := by
    rw [List.getD_eq_getElem?_getD, List.getElem?_eq_getElem ha]
    exact hxa
  have hyb' : zs.getD b [] = y := by
    rw [List.getD_eq_getElem?_getD, List.getElem?_eq_getElem hb]
    exact hyb
  rw [← hxa', ← hyb', hmain a (by omega), hmain b (by omega)]

/-- Two distinct positions satisfying a predicate force its count to be at
least 2. -/
lemma two_pos_countP (l : List ℚ) (p : ℚ → Bool) (i j : ℕ)
    (hij : i < j) (hj : j < l.length)
    (hpi : p (l.getD i 0) = true) (hpj : p (l.getD j 0) = true) :
    2 ≤ l.countP p := by
  have hi : i < l.length := by omega
  have hsplit : l = l.take (i + 1) ++ l.drop (i + 1) := (List.take_append_drop _ l).symm
  have hc : l.countP p = (l.take (i + 1)).countP p + (l.drop (i + 1)).countP p := by
    conv_lhs => rw [hsplit]
    exact List.countP_append p _ _
  have hmem1 : l.getD i 0 ∈ l.take (i + 1) := by
    have hlt : i < (l.take (i + 1)).length := by
      rw [List.length_take]
      omega
    have : (l.take (i + 1))[i] = l[i] := List.getElem_take l
    rw [List.getD_eq_getElem?_getD, List.getElem?_eq_getElem hi]
    show l[i] ∈ l.take (i + 1)
    rw [← this]
    exact List.getElem_mem hlt
  have hmem2 : l.getD j 0 ∈ l.drop (i + 1) := by
    have hlt : j - (i + 1) < (l.drop (i + 1)).length := by
      rw [List.length_drop]
      omega
    have : (l.drop (i + 1))[j - (i + 1)] = l[i + 1 + (j - (i + 1))] :=
      List.getElem_drop l
    rw [List.getD_eq_getElem?_getD, List.getElem?_eq_getElem hj]
    show l[j] ∈ l.drop (i + 1)
    have hjj : l[i + 1 + (j - (i + 1))] = l[j] := by
      congr 1
      omega
    rw [← hjj, ← this]
    exact List.getElem_mem hlt
  have h1 : 0 < (l.take (i + 1)).countP p :=
    List.countP_pos.mpr ⟨_, hmem1, hpi⟩
  have h2 : 0 < (l.drop (i + 1)).countP p :=
    List.countP_pos.mpr ⟨_, hmem2, hpj⟩
  omega

/-- If the `n - 1` kept (smallest) deltas are all zero and the deltas are
non-negative, at most one raw delta is nonzero: there is an edge index `j`
such that every other cyclic edge has zero length. -/
lemma raw_zero_except_one (raw : List ℚ) (n : ℕ) (hlen : raw.length = n)
    (h2 : 2 ≤ n) (hnn : ∀ x ∈ raw, 0 ≤ x)
    (hzero : ∀ x ∈ (List.insertionSort (· ≤ ·) raw).take (n - 1), x = 0) :
    ∃ j, j < n ∧ ∀ i, i < n → i ≠ j → raw.getD i 0 = 0 := by
  have hslen : (List.insertionSort (· ≤ ·) raw).length = n := by
    rw [List.length_insertionSort, hlen]
  have hperm : (List.insertionSort (· ≤ ·) raw).Perm raw :=
    List.perm_insertionSort _ raw
  -- the sorted list has at least n - 1 zero entries
  have hcount : n - 1 ≤ raw.countP (fun x => x == 0) := by
    have htlen : ((List.insertionSort (· ≤ ·) raw).take (n - 1)).length = n - 1 := by
      rw [List.length_take, hslen]
      omega
    have h1 : ((List.insertionSort (· ≤ ·) raw).take (n - 1)).countP (fun x => x == 0)
        = ((List.insertionSort (· ≤ ·) raw).take (n - 1)).length :=
      List.countP_eq_length.mpr (fun a ha => by
        rw [beq_iff_eq]
        exact hzero a ha)
    rw [htlen] at h1
    have h2' : (List.insertionSort (· ≤ ·) raw).countP (fun x => x == 0)
        = ((List.insertionSort (· ≤ ·) raw).take (n - 1)).countP (fun x => x == 0)
        + ((List.insertionSort (· ≤ ·) raw).drop (n - 1)).countP (fun x => x == 0) := by
      conv_lhs => rw [← List.take_append_drop (n - 1) (List.insertionSort (· ≤ ·) raw)]
      exact List.countP_append _ _ _
    have h3 : raw.countP (fun x => x == 0)
        = (List.insertionSort (· ≤ ·) raw).countP (fun x => x == 0) :=
      (hperm.countP_eq _).symm
    omega
  -- hence at most one nonzero entry
  have hone : raw.countP (fun x => x != 0) ≤ 1 := by
    have hsum := List.length_eq_countP_add_countP (fun x : ℚ => x == 0) raw
    have hcongr : raw.countP (fun a => decide ¬(a == 0) = true)
        = raw.countP (fun x => x != 0) := by
      apply List.countP_congr
      intro a _
      simp [bne]
    rw [hlen, hcongr] at hsum
    omega
  by_cases hall : ∀ i, i < n → raw.getD i 0 = 0
  · exact ⟨0, by omega, fun i hi _ => hall i hi⟩
  · push_neg at hall
    obtain ⟨i0, hi0, hne0⟩ := hall
    refine ⟨i0, hi0, ?_⟩
    intro i hi hii
    by_contra hne
    have hboth : 2 ≤ raw.countP (fun x => x != 0) := by
      rcases Nat.lt_or_ge i i0 with h | h
      · exact two_pos_countP raw _ i i0 (by omega) (by omega)
          (by rw [bne_iff_ne]; exact hne) (by rw [bne_iff_ne]; exact hne0)
      · exact two_pos_countP raw _ i0 i (by omega) (by omega)
          (by rw [bne_iff_ne]; exact hne0) (by rw [bne_iff_ne]; exact hne)
    omega

/-- Non-negativity and the zero characterization of the per-repeat width,
for a norm that is non-negative and definite. -/
lemma width_zero_iff (nrm : Vec → ℚ) (zs : List Vec) (d : ℕ) (w : ℚ)
    (hne : zs ≠ []) (hrect : ∀ v ∈ zs, v.length = d)
    (hnn : ∀ v, 0 ≤ nrm v)
    (hdef : ∀ x y : Vec, x.length = y.length → (nrm (vsub x y) = 0 ↔ x = y))
    (hw : traversal_width nrm zs = .ok w) :
    0 ≤ w ∧ (w = 0 ↔ ∀ x ∈ zs, ∀ y ∈ zs, x = y) := by
  obtain ⟨w', hw', hbound, hatt⟩ := traversal_width_spec nrm zs d hne hrect
  obtain ⟨a, ha, b, hb, hab⟩ := hatt
  rw [hw'] at hw
  have hww : w' = w := Except.ok.inj hw
  subst hww
  refine ⟨by rw [hab]; exact hnn _, ?_, ?_⟩
  · intro h0 x hx y hy
    have hle := hbound x hx y hy
    have hge := hnn (vsub x y)
    have h00 : nrm (vsub x y) = 0 := le_antisymm (h0 ▸ hle) hge
    exact (hdef x y (by rw [hrect x hx, hrect y hy])).mp h00
  · intro hall
    rw [hab, hall a ha b hb]
    exact (hdef b b rfl).mpr rfl

lemma measure_one_inv (nrm : Vec → ℚ) (f_size : ℕ) (zs : List Vec)
    (m : ℚ × List ℚ) (h : measure_one nrm f_size zs = .ok m) :
    traversal_width nrm zs = .ok m.1
      ∧ topk_smallest (rawCyclicDeltas nrm zs) (f_size - 1) = .ok m.2 := by
  unfold measure_one at h
  cases hW : traversal_width nrm zs with
  | error e => rw [hW, error_bind] at h; exact absurd h (by simp)
  | ok w =>
    rw [hW, ok_bind] at h
    cases hD : topk_smallest (rawCyclicDeltas nrm zs) (f_size - 1) with
    | error e => rw [hD, error_bind] at h; exact absurd h (by simp)
    | ok ds =>
      rw [hD, ok_bind] at h
      have hm : (w, ds) = m := Except.ok.inj h
      subst hm
      exact ⟨rfl, rfl⟩

lemma measure_one_ok (nrm : Vec → ℚ) (zs : List Vec) (n d : ℕ)
    (hlen : zs.length = n) (h2 : 2 ≤ n) (hrect : ∀ v ∈ zs, v.length = d) :
    ∃ m, measure_one nrm n zs = .ok m := by
  have hne : zs ≠ [] := by
    intro hcon
    rw [hcon] at hlen
    simp at hlen
    omega
  obtain ⟨w, hw, _, _⟩ := traversal_width_spec nrm zs d hne hrect
  unfold measure_one
  rw [hw, ok_bind]
  unfold topk_smallest
  rw [if_pos (by rw [rawCyclicDeltas_length, hlen]; omega), ok_bind]
  exact ⟨_, rfl⟩

lemma topk_inv (xs : List ℚ) (k : ℕ) (ds : List ℚ)
    (h : topk_smallest xs k = .ok ds) :
    ds = (List.insertionSort (· ≤ ·) xs).take k ∧ k ≤ xs.length := by
  unfold topk_smallest at h
  by_cases hk : k ≤ xs.length
  · rw [if_pos hk] at h
    exact ⟨(Except.ok.inj h).symm, hk⟩
  · rw [if_neg hk] at h
    exact absurd h (by simp)

lemma take_sort_subset {xs : List ℚ} {k : ℕ} {x : ℚ}
    (hx : x ∈ (List.insertionSort (· ≤ ·) xs).take k) : x ∈ xs :=
  (List.perm_insertionSort _ xs).mem_iff.mp (List.mem_of_mem_take hx)

lemma raw_mem_nonneg (nrm : Vec → ℚ) (zs : List Vec)
    (hnn : ∀ v, 0 ≤ nrm v) : ∀ x ∈ rawCyclicDeltas nrm zs, 0 ≤ x := by
  intro x hx
  unfold rawCyclicDeltas at hx
  obtain ⟨i, _, hxi⟩ := List.mem_map.mp hx
  rw [← hxi]
  exact hnn _

lemma raw_zero_of_allEq (nrm : Vec → ℚ) (zs : List Vec)
    (hdef : ∀ x y : Vec, x.length = y.length → (nrm (vsub x y) = 0 ↔ x = y))
    (hall : ∀ x ∈ zs, ∀ y ∈ zs, x = y) :
    ∀ x ∈ rawCyclicDeltas nrm zs, x = 0 := by
  intro x hx
  unfold rawCyclicDeltas at hx
  obtain ⟨i, hi, hxi⟩ := List.mem_map.mp hx
  have hil : i < zs.length := List.mem_range.mp hi
  have hpos : 0 < zs.length := by omega
  have hab : zs.getD i [] = zs.getD ((i + 1) % zs.length) [] :=
    hall _ (getD_mem hil) _ (getD_mem (Nat.mod_lt _ hpos))
  rw [← hxi, hab]
  exact (hdef _ _ rfl).mpr rfl

/-- If the kept (smallest `n - 1`) deltas are all zero, the whole traversal
collapses to a single point (at most one cyclic edge is nonzero, and a
cycle with all other edges of zero length connects every vertex). -/
lemma allEq_of_ds_zero (nrm : Vec → ℚ) (zs : List Vec) (n d : ℕ)
    (ds : List ℚ) (hlen : zs.length = n) (h2 : 2 ≤ n)
    (hrect : ∀ v ∈ zs, v.length = d)
    (hnn : ∀ v, 0 ≤ nrm v)
    (hdef : ∀ x y : Vec, x.length = y.length → (nrm (vsub x y) = 0 ↔ x = y))
    (hds : topk_smallest (rawCyclicDeltas nrm zs) (n - 1) = .ok ds)
    (hzero : ∀ x ∈ ds, x = 0) :
    ∀ x ∈ zs, ∀ y ∈ zs, x = y := by
  obtain ⟨hdseq, _⟩ := topk_inv _ _ _ hds
  have hrawlen : (rawCyclicDeltas nrm zs).length = n := by
    rw [rawCyclicDeltas_length, hlen]
  obtain ⟨j, hj, hz0⟩ := raw_zero_except_one (rawCyclicDeltas nrm zs) n hrawlen
    h2 (raw_mem_nonneg nrm zs hnn) (fun x hx => hzero x (hdseq ▸ hx))
  apply cycle_all_eq zs n hlen h2 j hj
  intro i hi hij
  have h0 := hz0 i hi hij
  rw [rawCyclicDeltas_getD nrm zs i (by omega)] at h0
  have hlens : (zs.getD i []).length = (zs.getD ((i + 1) % zs.length) []).length := by
    rw [hrect _ (getD_mem (by omega)),
        hrect _ (getD_mem (Nat.mod_lt _ (by omega)))]
  have heq := (hdef _ _ hlens).mp h0
  rw [hlen] at heq
  exact heq

lemma mapM_eq_map_of_ok {α β : Type} (l : List α) (f : α → Except String β)
    (v : α → β) (h : ∀ a ∈ l, f a = .ok (v a)) :
    l.mapM f = .ok (l.map v) := by
  induction l with
  | nil => rfl
  | cons a as ih =>
    rw [List.mapM_cons, h a (List.mem_cons_self a as),
        ih (fun x hx => h x (List.mem_cons_of_mem a hx)), ok_bind, ok_bind]
    rfl

/-- For an active factor (size at least 2), a row-wise encoder and
non-negative definite norms, the per-factor aggregator succeeds, its
measures are non-negative, and each of the four measures vanishes exactly
when every sampled traversal is a single repeated point — so any width
vanishes iff any delta does. -/
lemma aggregate_active_spec (factor_sizes : List ℕ)
    (F : List (List ℕ) → List Vec) (g : List ℕ → Vec) (d : ℕ)
    (samples : ℕ → List ℕ) (f n R : ℕ) (b : ℤ) (nrm1 nrm2 : Vec → ℚ)
    (hF : ∀ xs, F xs = xs.map g) (hd : ∀ row, (g row).length = d)
    (hflen : f < factor_sizes.length) (hfs : factor_sizes.getD f 0 = n)
    (h2 : 2 ≤ n) (hR : 1 ≤ R) (hb : 0 < b)
    (hnn1 : ∀ v, 0 ≤ nrm1 v) (hnn2 : ∀ v, 0 ≤ nrm2 v)
    (hdef1 : ∀ x y : Vec, x.length = y.length → (nrm1 (vsub x y) = 0 ↔ x = y))
    (hdef2 : ∀ x y : Vec, x.length = y.length → (nrm2 (vsub x y) = 0 ↔ x = y)) :
    ∃ m1 m2 : ℚ × ℚ,
      aggregate_measure_distances_along_factor factor_sizes F samples (f : ℤ)
          R b [nrm1, nrm2] false = .ok [m1, m2]
      ∧ (0 ≤ m1.1 ∧ 0 ≤ m1.2 ∧ 0 ≤ m2.1 ∧ 0 ≤ m2.2)
      ∧ ((m1.1 = 0 ↔ m1.2 = 0) ∧ (m2.1 = 0 ↔ m1.2 = 0)
          ∧ (m2.2 = 0 ↔ m1.2 = 0)) := by
  classical
  set zsOf : ℕ → List Vec :=
    fun r => (range_along_repeated_factors (samples r) (f : ℤ) n).map g with hzsOf
  have hzlen : ∀ r, (zsOf r).length = n := by
    intro r
    rw [hzsOf]
    simp [range_along_repeated_factors]
  have hzrect : ∀ r, ∀ v ∈ zsOf r, v.length = d := by
    intro r v hv
    rw [hzsOf] at hv
    obtain ⟨row, _, hrow⟩ := List.mem_map.mp hv
    rw [← hrow]
    exact hd row
  have hzne : ∀ r, zsOf r ≠ [] := by
    intro r hcon
    have := hzlen r
    rw [hcon] at this
    simp at this
    omega
  have henc : ∀ r, encode_all_along_factor factor_sizes F (samples r) (f : ℤ) b
      = .ok (zsOf r) := by
    intro r
    rw [encode_along_rowwise factor_sizes F g hF (samples r) (f : ℤ) b hb,
        pyGet_natcast factor_sizes f hflen, hfs]
    rfl
  have hch : ∀ r : ℕ, ∃ p : (ℚ × List ℚ) × (ℚ × List ℚ),
      measure_one nrm1 n (zsOf r) = .ok p.1
        ∧ measure_one nrm2 n (zsOf r) = .ok p.2 := by
    intro r
    obtain ⟨a, hA⟩ := measure_one_ok nrm1 (zsOf r) n d (hzlen r) h2 (hzrect r)
    obtain ⟨c, hC⟩ := measure_one_ok nrm2 (zsOf r) n d (hzlen r) h2 (hzrect r)
    exact ⟨(a, c), hA, hC⟩
  choose M hM1 hM2 using hch
  have hbody : ∀ r ∈ List.range R, (do
      let zs ← encode_all_along_factor factor_sizes F (samples r) (f : ℤ) b
      [nrm1, nrm2].mapM (fun nrm => measure_one nrm n zs))
      = .ok [(M r).1, (M r).2] := by
    intro r _
    rw [henc r, ok_bind, List.mapM_cons, hM1 r, ok_bind, List.mapM_cons,
        hM2 r, ok_bind, List.mapM_nil]
    rfl
  -- per-repeat facts
  have hw1 : ∀ r, traversal_width nrm1 (zsOf r) = .ok ((M r).1).1 :=
    fun r => (measure_one_inv nrm1 n (zsOf r) _ (hM1 r)).1
  have hds1 : ∀ r, topk_smallest (rawCyclicDeltas nrm1 (zsOf r)) (n - 1)
      = .ok ((M r).1).2 :=
    fun r => (measure_one_inv nrm1 n (zsOf r) _ (hM1 r)).2
  have hw2 : ∀ r, traversal_width nrm2 (zsOf r) = .ok ((M r).2).1 :=
    fun r => (measure_one_inv nrm2 n (zsOf r) _ (hM2 r)).1
  have hds2 : ∀ r, topk_smallest (rawCyclicDeltas nrm2 (zsOf r)) (n - 1)
      = .ok ((M r).2).2 :=
    fun r => (measure_one_inv nrm2 n (zsOf r) _ (hM2 r)).2
  have hwz1 : ∀ r, 0 ≤ ((M r).1).1
      ∧ (((M r).1).1 = 0 ↔ ∀ x ∈ zsOf r, ∀ y ∈ zsOf r, x = y) :=
    fun r => width_zero_iff nrm1 (zsOf r) d _ (hzne r) (hzrect r) hnn1 hdef1 (hw1 r)
  have hwz2 : ∀ r, 0 ≤ ((M r).2).1
      ∧ (((M r).2).1 = 0 ↔ ∀ x ∈ zsOf r, ∀ y ∈ zsOf r, x = y) :=
    fun r => width_zero_iff nrm2 (zsOf r) d _ (hzne r) (hzrect r) hnn2 hdef2 (hw2 r)
  have hdsnn1 : ∀ r, ∀ x ∈ ((M r).1).2, 0 ≤ x := by
    intro r x hx
    obtain ⟨hdseq, _⟩ := topk_inv _ _ _ (hds1 r)
    exact raw_mem_nonneg nrm1 (zsOf r) hnn1 x (take_sort_subset (hdseq ▸ hx))
  have hdsnn2 : ∀ r, ∀ x ∈ ((M r).2).2, 0 ≤ x := by
    intro r x hx
    obtain ⟨hdseq, _⟩ := topk_inv _ _ _ (hds2 r)
    exact raw_mem_nonneg nrm2 (zsOf r) hnn2 x (take_sort_subset (hdseq ▸ hx))
  have hdslen1 : ∀ r, ((M r).1).2.length = n - 1 := by
    intro r
    obtain ⟨hdseq, _⟩ := topk_inv _ _ _ (hds1 r)
    rw [hdseq, List.length_take, List.length_insertionSort,
        rawCyclicDeltas_length, hzlen r]
    omega
  have hdsz1 : ∀ r, (∀ x ∈ ((M r).1).2, x = 0)
      ↔ (∀ x ∈ zsOf r, ∀ y ∈ zsOf r, x = y) := by
    intro r
    constructor
    · intro h
      exact allEq_of_ds_zero nrm1 (zsOf r) n d _ (hzlen r) h2 (hzrect r)
        hnn1 hdef1 (hds1 r) h
    · intro h x hx
      obtain ⟨hdseq, _⟩ := topk_inv _ _ _ (hds1 r)
      exact raw_zero_of_allEq nrm1 (zsOf r) hdef1 h x (take_sort_subset (hdseq ▸ hx))
  have hdsz2 : ∀ r, (∀ x ∈ ((M r).2).2, x = 0)
      ↔ (∀ x ∈ zsOf r, ∀ y ∈ zsOf r, x = y) := by
    intro r
    constructor
    · intro h
      exact allEq_of_ds_zero nrm2 (zsOf r) n d _ (hzlen r) h2 (hzrect r)
        hnn2 hdef2 (hds2 r) h
    · intro h x hx
      obtain ⟨hdseq, _⟩ := topk_inv _ _ _ (hds2 r)
      exact raw_zero_of_allEq nrm2 (zsOf r) hdef2 h x (take_sort_subset (hdseq ▸ hx))
  -- unfold the aggregator
  unfold aggregate_measure_distances_along_factor
  rw [pyGet_natcast factor_sizes f hflen, hfs, ok_bind, if_neg (by omega),
      mapM_eq_map_of_ok (List.range R) _ (fun r => [(M r).1, (M r).2]) hbody,
      ok_bind, if_neg (by omega),
      show ([nrm1, nrm2] : List (Vec → ℚ)).length = 2 from rfl,
      show List.range 2 = [0, 1] from rfl, List.map_cons, List.map_cons,
      List.map_nil]
  have hcolW1 : ((List.range R).map (fun r => [(M r).1, (M r).2])).map
      (fun row => (row.getD 0 ((0 : ℚ), ([] : List ℚ))).1)
      = (List.range R).map (fun r => ((M r).1).1) := by
    rw [List.map_map]
    rfl
  have hcolD1 : ((List.range R).map (fun r => [(M r).1, (M r).2])).map
      (fun row => (row.getD 0 ((0 : ℚ), ([] : List ℚ))).2)
      = (List.range R).map (fun r => ((M r).1).2) := by
    rw [List.map_map]
    rfl
  have hcolW2 : ((List.range R).map (fun r => [(M r).1, (M r).2])).map
      (fun row => (row.getD 1 ((0 : ℚ), ([] : List ℚ))).1)
      = (List.range R).map (fun r => ((M r).2).1) := by
    rw [List.map_map]
    rfl
  have hcolD2 : ((List.range R).map (fun r => [(M r).1, (M r).2])).map
      (fun row => (row.getD 1 ((0 : ℚ), ([] : List ℚ))).2)
      = (List.range R).map (fun r => ((M r).2).2) := by
    rw [List.map_map]
    rfl
  rw [hcolW1, hcolD1, hcolW2, hcolD2]
  refine ⟨_, _, rfl, ?_, ?_⟩
  -- non-negativity of the four averaged measures
  · refine ⟨?_, ?_, ?_, ?_⟩
    · apply avg_nonneg
      intro x hx
      obtain ⟨r, _, hxr⟩ := List.mem_map.mp hx
      rw [← hxr]
      exact (hwz1 r).1
    · apply avg_nonneg
      intro x hx
      obtain ⟨l, hl, hxl⟩ := List.mem_flatten.mp hx
      obtain ⟨r, _, hlr⟩ := List.mem_map.mp hl
      exact hdsnn1 r x (hlr ▸ hxl)
    · apply avg_nonneg
      intro x hx
      obtain ⟨r, _, hxr⟩ := List.mem_map.mp hx
      rw [← hxr]
      exact (hwz2 r).1
    · apply avg_nonneg
      intro x hx
      obtain ⟨l, hl, hxl⟩ := List.mem_flatten.mp hx
      obtain ⟨r, _, hlr⟩ := List.mem_map.mp hl
      exact hdsnn2 r x (hlr ▸ hxl)
  -- the joint-zero characterizations, all through "every traversal is a
  -- single repeated point"
  have hWne : ((List.range R).map (fun r => ((M r).1).1)) ≠ [] := by
    simp only [ne_eq, List.map_eq_nil_iff, List.range_eq_nil]
    omega
  have hW2ne : ((List.range R).map (fun r => ((M r).2).1)) ≠ [] := by
    simp only [ne_eq, List.map_eq_nil_iff, List.range_eq_nil]
    omega
  have hD1ne : (((List.range R).map (fun r => ((M r).1).2)).flatten) ≠ [] := by
    have h0R : 0 ∈ List.range R := List.mem_range.mpr (by omega)
    have hlen0 : ((M 0).1).2.length = n - 1 := hdslen1 0
    have hne0 : ((M 0).1).2 ≠ [] := by
      intro hcon
      rw [hcon] at hlen0
      simp at hlen0
      omega
    obtain ⟨y, hy⟩ := List.exists_mem_of_ne_nil _ hne0
    intro hcon
    have : y ∈ (((List.range R).map (fun r => ((M r).1).2)).flatten) :=
      List.mem_flatten.mpr ⟨_, List.mem_map_of_mem _ h0R, hy⟩
    rw [hcon] at this
    exact List.not_mem_nil y this
  have hD2ne : (((List.range R).map (fun r => ((M r).2).2)).flatten) ≠ [] := by
    have h0R : 0 ∈ List.range R := List.mem_range.mpr (by omega)
    have hlen0 : ((M 0).2).2.length = n - 1 := by
      obtain ⟨hdseq, _⟩ := topk_inv _ _ _ (hds2 0)
      rw [hdseq, List.length_take, List.length_insertionSort,
          rawCyclicDeltas_length, hzlen 0]
      omega
    have hne0 : ((M 0).2).2 ≠ [] := by
      intro hcon
      rw [hcon] at hlen0
      simp at hlen0
      omega
    obtain ⟨y, hy⟩ := List.exists_mem_of_ne_nil _ hne0
    intro hcon
    have : y ∈ (((List.range R).map (fun r => ((M r).2).2)).flatten) :=
      List.mem_flatten.mpr ⟨_, List.mem_map_of_mem _ h0R, hy⟩
    rw [hcon] at this
    exact List.not_mem_nil y this
  have hWz : avg ((List.range R).map (fun r => ((M r).1).1)) = 0
      ↔ ∀ r, r < R → ∀ x ∈ zsOf r, ∀ y ∈ zsOf r, x = y := by
    rw [avg_zero_iff _ hWne (by
      intro x hx
      obtain ⟨r, _, hxr⟩ := List.mem_map.mp hx
      rw [← hxr]
      exact (hwz1 r).1)]
    constructor
    · intro h r hr
      exact ((hwz1 r).2).mp
        (h _ (List.mem_map_of_mem _ (List.mem_range.mpr hr)))
    · intro h x hx
      obtain ⟨r, hr, hxr⟩ := List.mem_map.mp hx
      rw [← hxr]
      exact ((hwz1 r).2).mpr (h r (List.mem_range.mp hr))
  have hW2z : avg ((List.range R).map (fun r => ((M r).2).1)) = 0
      ↔ ∀ r, r < R → ∀ x ∈ zsOf r, ∀ y ∈ zsOf r, x = y := by
    rw [avg_zero_iff _ hW2ne (by
      intro x hx
      obtain ⟨r, _, hxr⟩ := List.mem_map.mp hx
      rw [← hxr]
      exact (hwz2 r).1)]
    constructor
    · intro h r hr
      exact ((hwz2 r).2).mp
        (h _ (List.mem_map_of_mem _ (List.mem_range.mpr hr)))
    · intro h x hx
      obtain ⟨r, hr, hxr⟩ := List.mem_map.mp hx
      rw [← hxr]
      exact ((hwz2 r).2).mpr (h r (List.mem_range.mp hr))
  have hD1z : avg (((List.range R).map (fun r => ((M r).1).2)).flatten) = 0
      ↔ ∀ r, r < R → ∀ x ∈ zsOf r, ∀ y ∈ zsOf r, x = y := by
    rw [avg_zero_iff _ hD1ne (by
      intro x hx
      obtain ⟨l, hl, hxl⟩ := List.mem_flatten.mp hx
      obtain ⟨r, _, hlr⟩ := List.mem_map.mp hl
      exact hdsnn1 r x (hlr ▸ hxl))]
    constructor
    · intro h r hr
      apply (hdsz1 r).mp
      intro x hx
      exact h x (List.mem_flatten.mpr
        ⟨_, List.mem_map_of_mem _ (List.mem_range.mpr hr), hx⟩)
    · intro h x hx
      obtain ⟨l, hl, hxl⟩ := List.mem_flatten.mp hx
      obtain ⟨r, hr, hlr⟩ := List.mem_map.mp hl
      exact (hdsz1 r).mpr (h r (List.mem_range.mp hr)) x (hlr ▸ hxl)
  have hD2z : avg (((List.range R).map (fun r => ((M r).2).2)).flatten) = 0
      ↔ ∀ r, r < R → ∀ x ∈ zsOf r, ∀ y ∈ zsOf r, x = y := by
    rw [avg_zero_iff _ hD2ne (by
      intro x hx
      obtain ⟨l, hl, hxl⟩ := List.mem_flatten.mp hx
      obtain ⟨r, _, hlr⟩ := List.mem_map.mp hl
      exact hdsnn2 r x (hlr ▸ hxl))]
    constructor
    · intro h r hr
      apply (hdsz2 r).mp
      intro x hx
      exact h x (List.mem_flatten.mpr
        ⟨_, List.mem_map_of_mem _ (List.mem_range.mpr hr), hx⟩)
    · intro h x hx
      obtain ⟨l, hl, hxl⟩ := List.mem_flatten.mp hx
      obtain ⟨r, hr, hlr⟩ := List.mem_map.mp hl
      exact (hdsz2 r).mpr (h r (List.mem_range.mp hr)) x (hlr ▸ hxl)
  exact ⟨hWz.trans hD1z.symm, hW2z.trans hD1z.symm, hD2z.trans hD1z.symm⟩

lemma mapM_ok_exists_pointwise {α β : Type} (l : List α)
    (f : α → Except String β) (dβ : β)
    (h : ∀ a ∈ l, ∃ b, f a = .ok b) :
    ∃ bs, l.mapM f = .ok bs ∧ bs.length = l.length
      ∧ ∀ i (dα : α), i < l.length → f (l.getD i dα) = .ok (bs.getD i dβ) := by
  induction l with
  | nil => exact ⟨[], rfl, rfl, fun i dα hi => absurd hi (by simp)⟩
  | cons a as ih =>
    obtain ⟨b, hb⟩ := h a (List.mem_cons_self a as)
    obtain ⟨bs, hbs, hlen, hat⟩ := ih (fun x hx => h x (List.mem_cons_of_mem a hx))
    refine ⟨b :: bs, ?_, by simp [hlen], ?_⟩
    · rw [List.mapM_cons, hb, ok_bind, hbs, ok_bind]
      rfl
    · intro i dα hi
      cases i with
      | zero => exact hb
      | succ i => exact hat i dα (by simp at hi; omega)

lemma getD_mem_nat {l : List ℕ} {i : ℕ} (hi : i < l.length) :
    l.getD i 0 ∈ l := by
  rw [List.getD_eq_getElem?_getD, List.getElem?_eq_getElem hi]
  exact List.getElem_mem hi

lemma activeIdx_mem_iff {factor_sizes : List ℕ} {i : ℕ} :
    i ∈ activeIdx factor_sizes
      ↔ i < factor_sizes.length ∧ factor_sizes.getD i 0 ≠ 1 := by
  unfold activeIdx
  rw [List.mem_filter, List.mem_range]
  simp

lemma meanQ_isSome {l : List ℚ} (h : l ≠ []) : (meanQ l).isSome = true := by
  unfold meanQ
  rw [if_neg (by simpa using h)]
  rfl

lemma msW_getD (ms : List (List (ℚ × ℚ))) (j i : ℕ) :
    (msW ms j).getD i 0 = ((ms.getD i []).getD j ((0 : ℚ), (0 : ℚ))).1 := by
  unfold msW
  exact List.getD_map ms [] _

lemma msD_getD (ms : List (List (ℚ × ℚ))) (j i : ℕ) :
    (msD ms j).getD i 0 = ((ms.getD i []).getD j ((0 : ℚ), (0 : ℚ))).2 := by
  unfold msD
  exact List.getD_map ms [] _

lemma fs_lengths_getD (factor_sizes : List ℕ) (deltas : List ℚ) (i : ℕ)
    (hi : i < factor_sizes.length) (hlen : deltas.length = factor_sizes.length) :
    (fs_lengths factor_sizes deltas).getD i 0
      = ((factor_sizes.getD i 0 : ℚ) - 1) * deltas.getD i 0 := by
  unfold fs_lengths
  have hb : i < (List.zipWith (fun (sz : ℕ) (d : ℚ) => ((sz : ℚ) - 1) * d)
      factor_sizes deltas).length := by
    rw [List.length_zipWith]
    omega
  rw [List.getD_eq_getElem?_getD, List.getElem?_eq_getElem hb,
      List.getElem_zipWith,
      List.getD_eq_getElem?_getD factor_sizes,
      List.getElem?_eq_getElem hi,
      List.getD_eq_getElem?_getD deltas,
      List.getElem?_eq_getElem (show i < deltas.length by omega)]
  rfl

/-- C7 (amended): when at least one factor is non-degenerate (and the
encoder is row-wise, the norms are genuine non-negative definite norms, and
`repeats` and `batch_size` are positive), the metric returns a mapping with
exactly the seven score names, every value a plain finite float. -/
theorem C7_keys_and_finiteness (factor_sizes : List ℕ)
    (F : List (List ℕ) → List Vec) (g : List ℕ → Vec) (d : ℕ)
    (samples : ℕ → ℕ → List ℕ) (R : ℕ) (b : ℤ) (nrm1 nrm2 : Vec → ℚ)
    (hF : ∀ xs, F xs = xs.map g) (hd : ∀ row, (g row).length = d)
    (hsz : ∀ s ∈ factor_sizes, 1 ≤ s) (hact : ∃ s ∈ factor_sizes, 2 ≤ s)
    (hR : 1 ≤ R) (hb : 0 < b)
    (hnn1 : ∀ v, 0 ≤ nrm1 v) (hnn2 : ∀ v, 0 ≤ nrm2 v)
    (hdef1 : ∀ x y : Vec, x.length = y.length → (nrm1 (vsub x y) = 0 ↔ x = y))
    (hdef2 : ∀ x y : Vec, x.length = y.length → (nrm2 (vsub x y) = 0 ↔ x = y)) :
    ∃ res, metric_flatness factor_sizes F samples R b nrm1 nrm2 = .ok res
      ∧ res.map Prod.fst
        = ["flatness.ave_flatness", "flatness.ave_flatness_l1",
           "flatness.ave_flatness_l2", "flatness.ave_width_l1",
           "flatness.ave_width_l2", "flatness.ave_length_l1",
           "flatness.ave_length_l2"]
      ∧ ∀ kv ∈ res, kv.2.isSome = true := by
  classical
  -- each factor's aggregate succeeds, with joint-zero measures
  have hch : ∀ i ∈ List.range factor_sizes.length, ∃ m,
      aggregate_measure_distances_along_factor factor_sizes F (samples i)
        (i : ℤ) R b [nrm1, nrm2] false = .ok m := by
    intro i hi
    have hilt : i < factor_sizes.length := List.mem_range.mp hi
    by_cases hone : factor_sizes.getD i 0 = 1
    · exact ⟨_, aggregate_size_one factor_sizes F (samples i) (i : ℤ) R b
        [nrm1, nrm2] (by rw [pyGet_natcast factor_sizes i hilt, hone])⟩
    · have h2i : 2 ≤ factor_sizes.getD i 0 := by
        have := hsz _ (getD_mem_nat hilt)
        omega
      obtain ⟨m1, m2, hok, _, _⟩ := aggregate_active_spec factor_sizes F g d
        (samples i) i (factor_sizes.getD i 0) R b nrm1 nrm2 hF hd hilt rfl
        h2i hR hb hnn1 hnn2 hdef1 hdef2
      exact ⟨[m1, m2], hok⟩
  obtain ⟨MS, hMS, hMSlen, hMSat⟩ := mapM_ok_exists_pointwise _ _ ([] : List (ℚ × ℚ)) hch
  rw [List.length_range] at hMSlen
  have hMSat' : ∀ i, i < factor_sizes.length →
      aggregate_measure_distances_along_factor factor_sizes F (samples i)
        (i : ℤ) R b [nrm1, nrm2] false = .ok (MS.getD i []) := by
    intro i hi
    have := hMSat i 0 (by rw [List.length_range]; omega)
    rwa [List.getD_eq_getElem?_getD, List.getElem?_range hi] at this
  -- transfer the per-factor properties to `MS`
  have hprops : ∀ i, i < factor_sizes.length → factor_sizes.getD i 0 ≠ 1 →
      (0 ≤ ((MS.getD i []).getD 0 ((0 : ℚ), (0 : ℚ))).1
        ∧ 0 ≤ ((MS.getD i []).getD 0 ((0 : ℚ), (0 : ℚ))).2
        ∧ 0 ≤ ((MS.getD i []).getD 1 ((0 : ℚ), (0 : ℚ))).1
        ∧ 0 ≤ ((MS.getD i []).getD 1 ((0 : ℚ), (0 : ℚ))).2)
      ∧ ((((MS.getD i []).getD 0 ((0 : ℚ), (0 : ℚ))).1 = 0
            ↔ ((MS.getD i []).getD 0 ((0 : ℚ), (0 : ℚ))).2 = 0)
        ∧ (((MS.getD i []).getD 1 ((0 : ℚ), (0 : ℚ))).1 = 0
            ↔ ((MS.getD i []).getD 0 ((0 : ℚ), (0 : ℚ))).2 = 0)
        ∧ (((MS.getD i []).getD 1 ((0 : ℚ), (0 : ℚ))).2 = 0
            ↔ ((MS.getD i []).getD 0 ((0 : ℚ), (0 : ℚ))).2 = 0)) := by
    intro i hi hone
    have h2i : 2 ≤ factor_sizes.getD i 0 := by
      have := hsz _ (getD_mem_nat hi)
      omega
    obtain ⟨m1, m2, hok, hnn', hiffs⟩ := aggregate_active_spec factor_sizes F g d
      (samples i) i (factor_sizes.getD i 0) R b nrm1 nrm2 hF hd hi rfl
      h2i hR hb hnn1 hnn2 hdef1 hdef2
    have hmm : [m1, m2] = MS.getD i [] :=
      Except.ok.inj ((hok.symm).trans (hMSat' i hi))
    rw [← hmm]
    exact ⟨⟨hnn'.1, hnn'.2.1, hnn'.2.2.1, hnn'.2.2.2⟩, hiffs⟩
  -- lengths
  have hWlen : ∀ j, (msW MS j).length = factor_sizes.length := by
    intro j; simp [msW, hMSlen]
  have hDlen : ∀ j, (msD MS j).length = factor_sizes.length := by
    intro j; simp [msD, hMSlen]
  have hLlen : ∀ j, (fs_lengths factor_sizes (msD MS j)).length
      = factor_sizes.length := by
    intro j; simp [fs_lengths, msD, hMSlen]
  -- facts at active indices
  have hWnn : ∀ j ∈ [0, 1], ∀ i ∈ activeIdx factor_sizes,
      0 ≤ (msW MS j).getD i 0 := by
    intro j hj i hi
    obtain ⟨hilt, hone⟩ := activeIdx_mem_iff.mp hi
    obtain ⟨⟨p1, _, p3, _⟩, _⟩ := hprops i hilt hone
    rcases List.mem_cons.mp hj with rfl | hj'
    · rw [msW_getD]; exact p1
    · have : j = 1 := by simpa using hj'
      subst this
      rw [msW_getD]; exact p3
  have hLnn : ∀ j ∈ [0, 1], ∀ i ∈ activeIdx factor_sizes,
      0 ≤ (fs_lengths factor_sizes (msD MS j)).getD i 0 := by
    intro j hj i hi
    obtain ⟨hilt, hone⟩ := activeIdx_mem_iff.mp hi
    obtain ⟨⟨_, p2, _, p4⟩, _⟩ := hprops i hilt hone
    have h2i : 2 ≤ factor_sizes.getD i 0 := by
      have := hsz _ (getD_mem_nat hilt)
      omega
    have hszpos : (0 : ℚ) ≤ (factor_sizes.getD i 0 : ℚ) - 1 := by
      have : (2 : ℚ) ≤ (factor_sizes.getD i 0 : ℚ) := by exact_mod_cast h2i
      linarith
    rcases List.mem_cons.mp hj with rfl | hj'
    · rw [fs_lengths_getD factor_sizes _ i hilt (hDlen 0), msD_getD]
      exact mul_nonneg hszpos p2
    · have : j = 1 := by simpa using hj'
      subst this
      rw [fs_lengths_getD factor_sizes _ i hilt (hDlen 1), msD_getD]
      exact mul_nonneg hszpos p4
  have hinvfact : ∀ i ∈ activeIdx factor_sizes,
      ((msW MS 1).getD i 0 = 0
          ↔ (fs_lengths factor_sizes (msD MS 0)).getD i 0 = 0)
      ∧ ((msW MS 0).getD i 0 = 0
          ↔ (fs_lengths factor_sizes (msD MS 0)).getD i 0 = 0)
      ∧ ((msW MS 1).getD i 0 = 0
          ↔ (fs_lengths factor_sizes (msD MS 1)).getD i 0 = 0) := by
    intro i hi
    obtain ⟨hilt, hone⟩ := activeIdx_mem_iff.mp hi
    obtain ⟨_, hf1, hf2, hf3⟩ := hprops i hilt hone
    have h2i : 2 ≤ factor_sizes.getD i 0 := by
      have := hsz _ (getD_mem_nat hilt)
      omega
    have hszne : ((factor_sizes.getD i 0 : ℚ) - 1) ≠ 0 := by
      have : (2 : ℚ) ≤ (factor_sizes.getD i 0 : ℚ) := by exact_mod_cast h2i
      intro hcon
      linarith
    have hl0 : ∀ j, (fs_lengths factor_sizes (msD MS j)).getD i 0 = 0
        ↔ ((MS.getD i []).getD j ((0 : ℚ), (0 : ℚ))).2 = 0 := by
      intro j
      rw [fs_lengths_getD factor_sizes _ i hilt (hDlen j), msD_getD,
          mul_eq_zero]
      constructor
      · rintro (h | h)
        · exact absurd h hszne
        · exact h
      · exact Or.inr
    refine ⟨?_, ?_, ?_⟩
    · rw [msW_getD, hl0 0]
      exact hf2
    · rw [msW_getD, hl0 0]
      exact hf1
    · rw [msW_getD, hl0 1]
      exact hf2.trans hf3.symm
  -- the three flatness scores and four means
  have hfl := compute_flatness_eq_spec (msW MS 1)
    (fs_lengths factor_sizes (msD MS 0)) factor_sizes (hWlen 1) (hLlen 0) hsz
    (fun i hi => ⟨hWnn 1 (by simp) i hi, hLnn 0 (by simp) i hi⟩)
    (fun i hi => (hinvfact i hi).1)
  have hfl1 := compute_flatness_eq_spec (msW MS 0)
    (fs_lengths factor_sizes (msD MS 0)) factor_sizes (hWlen 0) (hLlen 0) hsz
    (fun i hi => ⟨hWnn 0 (by simp) i hi, hLnn 0 (by simp) i hi⟩)
    (fun i hi => (hinvfact i hi).2.1)
  have hfl2 := compute_flatness_eq_spec (msW MS 1)
    (fs_lengths factor_sizes (msD MS 1)) factor_sizes (hWlen 1) (hLlen 1) hsz
    (fun i hi => ⟨hWnn 1 (by simp) i hi, hLnn 1 (by simp) i hi⟩)
    (fun i hi => (hinvfact i hi).2.2)
  have haw1 := filter_inactive_eq_map (msW MS 0) factor_sizes (hWlen 0) hsz
  have haw2 := filter_inactive_eq_map (msW MS 1) factor_sizes (hWlen 1) hsz
  have hal1 := filter_inactive_eq_map
    (fs_lengths factor_sizes (msD MS 0)) factor_sizes (hLlen 0) hsz
  have hal2 := filter_inactive_eq_map
    (fs_lengths factor_sizes (msD MS 1)) factor_sizes (hLlen 1) hsz
  -- the active list is nonempty, so every mean is a finite value
  have hAne : activeIdx factor_sizes ≠ [] := by
    obtain ⟨s, hsmem, hs2⟩ := hact
    obtain ⟨k, hk, hks⟩ := List.mem_iff_getElem.mp hsmem
    intro hnil
    have hkact : k ∈ activeIdx factor_sizes := by
      refine activeIdx_mem_iff.mpr ⟨hk, ?_⟩
      rw [List.getD_eq_getElem?_getD, List.getElem?_eq_getElem hk, hks]
      simp only [Option.getD_some]
      omega
    rw [hnil] at hkact
    exact absurd hkact (List.not_mem_nil k)
  have hmapne : ∀ (f : ℕ → ℚ), (activeIdx factor_sizes).map f ≠ [] :=
    fun f h => hAne (List.map_eq_nil_iff.mp h)
  refine ⟨[("flatness.ave_flatness",
      flatness_ratio_spec (msW MS 1)
        (fs_lengths factor_sizes (msD MS 0)) factor_sizes),
    ("flatness.ave_flatness_l1",
      flatness_ratio_spec (msW MS 0)
        (fs_lengths factor_sizes (msD MS 0)) factor_sizes),
    ("flatness.ave_flatness_l2",
      flatness_ratio_spec (msW MS 1)
        (fs_lengths factor_sizes (msD MS 1)) factor_sizes),
    ("flatness.ave_width_l1",
      meanQ ((activeIdx factor_sizes).map fun i => (msW MS 0).getD i 0)),
    ("flatness.ave_width_l2",
      meanQ ((activeIdx factor_sizes).map fun i => (msW MS 1).getD i 0)),
    ("flatness.ave_length_l1",
      meanQ ((activeIdx factor_sizes).map fun i =>
        (fs_lengths factor_sizes (msD MS 0)).getD i 0)),
    ("flatness.ave_length_l2",
      meanQ ((activeIdx factor_sizes).map fun i =>
        (fs_lengths factor_sizes (msD MS 1)).getD i 0))], ?_, rfl, ?_⟩
  · unfold metric_flatness
    rw [hMS, ok_bind]
    unfold metric_results
    rw [hfl, ok_bind, hfl1, ok_bind, hfl2, ok_bind,
        haw1, map_ok, ok_bind, haw2, map_ok, ok_bind,
        hal1, map_ok, ok_bind, hal2, map_ok, ok_bind]
    rfl
  · intro kv hkv
    simp only [List.mem_cons, List.not_mem_nil, or_false] at hkv
    rcases hkv with rfl | rfl | rfl | rfl | rfl | rfl | rfl <;>
      exact meanQ_isSome (hmapne _)

lemma l1norm_nonneg (v : Vec) : 0 ≤ l1norm v := by
  unfold l1norm
  apply List.sum_nonneg
  intro x hx
  obtain ⟨a, _, rfl⟩ := List.mem_map.mp hx
  exact abs_nonneg a

lemma l1norm_zero_iff (v : Vec) : l1norm v = 0 ↔ ∀ x ∈ v, x = 0 := by
  unfold l1norm
  rw [sum_nonneg_eq_zero_iff _ (by
    intro x hx
    obtain ⟨a, _, rfl⟩ := List.mem_map.mp hx
    exact abs_nonneg a)]
  constructor
  · intro h x hx
    exact abs_eq_zero.mp (h _ (List.mem_map.mpr ⟨x, hx, rfl⟩))
  · intro h x hx
    obtain ⟨a, ha, rfl⟩ := List.mem_map.mp hx
    rw [h a ha, abs_zero]

lemma l1norm_definite (x y : Vec) (h : x.length = y.length) :
    l1norm (vsub x y) = 0 ↔ x = y := by
  rw [l1norm_zero_iff]
  unfold vsub
  constructor
  · intro hz
    apply List.ext_getElem h
    intro i h1 h2
    have hlen2 : i < (List.zipWith (· - ·) x y).length := by
      rw [List.length_zipWith]
      omega
    have hmem : x[i] - y[i] ∈ List.zipWith (· - ·) x y := by
      have hgz : (List.zipWith (· - ·) x y)[i] = x[i] - y[i] :=
        List.getElem_zipWith
      rw [← hgz]
      exact List.getElem_mem _
    have := hz _ hmem
    linarith
  · rintro rfl
    intro q hq
    rw [List.zipWith_same] at hq
    obtain ⟨a, _, rfl⟩ := List.mem_map.mp hq
    exact sub_self a

/-- C7 counterexample: on a dataset whose every factor is degenerate
(all sizes 1) the metric still returns successfully, but every one of the
seven values is NaN (`none`), refuting "each value a plain (finite)
float". -/
theorem C7_counterexample_all_degenerate_nan :
    metric_flatness [1] (fun xs => xs.map (fun _ => [(0 : ℚ)]))
        (fun _ _ => [0]) 1 64 l1norm l1norm
      = .ok [("flatness.ave_flatness", none), ("flatness.ave_flatness_l1", none),
             ("flatness.ave_flatness_l2", none), ("flatness.ave_width_l1", none),
             ("flatness.ave_width_l2", none), ("flatness.ave_length_l1", none),
             ("flatness.ave_length_l2", none)] := by
  with_unfolding_all rfl

/-- Witness for C7 at a concrete input: one factor of size 2, the row-wise
encoder sending a row to its first entry, and the l1 norm for both `p`. -/
theorem C7_keys_and_finiteness_witness :
    ∃ res, metric_flatness [2]
        (fun xs => xs.map (fun row => [((row.getD 0 0 : ℕ) : ℚ)]))
        (fun _ _ => [0]) 1 1 l1norm l1norm = .ok res
      ∧ res.map Prod.fst
        = ["flatness.ave_flatness", "flatness.ave_flatness_l1",
           "flatness.ave_flatness_l2", "flatness.ave_width_l1",
           "flatness.ave_width_l2", "flatness.ave_length_l1",
           "flatness.ave_length_l2"]
      ∧ ∀ kv ∈ res, kv.2.isSome = true :=
  C7_keys_and_finiteness [2] _ (fun row => [((row.getD 0 0 : ℕ) : ℚ)]) 1
    (fun _ _ => [0]) 1 1 l1norm l1norm
    (fun _ => rfl) (fun _ => rfl)
    (by intro s hs; simp at hs; omega)
    ⟨2, by simp, by omega⟩
    (le_refl 1) (by decide)
    l1norm_nonneg l1norm_nonneg l1norm_definite l1norm_definite

end Disent
